import Mathlib

/-!
Verification of the halal-matching engine of `cdc-makanmana`
(`src/services/halalService.ts`, class `HalalService`).

The TypeScript source is shallowly embedded below:

* `cleanName` embeds `HalalService.cleanName` (lowercase; remove corporate
  tokens `\b(pte|ltd|private|limited|sdn|bhd)\b`; remove unit/stall tokens
  `\b(stall|#|unit|\d+[a-z]?)\s*\d+`; map `[^\w\s]` to space; collapse `\s+`
  to one space; trim).  The two `String.replace` calls with global regexes
  are embedded as left-to-right scanners (`passAGo`, `passBGo`) that find
  leftmost, non-overlapping matches on the original string exactly as the
  JavaScript regex engine does, including `\b` word-boundary tests and the
  backtracking behaviour of `\d+[a-z]?\s*\d+`.  Character classes are the
  ASCII classes of JavaScript regexes (`\w` = `[A-Za-z0-9_]`); `toLowerCase`
  is embedded as the ASCII `Char.toLower` (the repository's data is ASCII).
* `levenshteinDistance` embeds the row-by-row dynamic program of
  `HalalService.levenshteinDistance`.
* `isWordSimilar`, `findBestNameMatch`, `isHalal` (as `isHalalCheck`), and
  the retry/latch lifecycle of `HalalService.initialize` (as
  `runInitialize`, with the network fetch abstracted to an oracle of
  per-attempt outcomes) embed the remaining members.

JavaScript numbers are embedded as `ℚ` where the source divides
(`similarity` scores); for the denominators reachable here (list lengths)
the IEEE-double comparisons of the source and the rational comparisons
agree, since a quotient of small naturals cannot fall within one double
ulp of the literals `0.9` / `0.8` without being equal to them.
-/

set_option maxRecDepth 100000

namespace Makanmana

/-! ### Character classes (JavaScript regex, ASCII) -/

/-- JavaScript regex `\w`: `[A-Za-z0-9_]`. -/
def isWordChar (c : Char) : Bool := c.isAlphanum || c = '_'

/-- JavaScript regex `\s` (ASCII part). -/
def isWs (c : Char) : Bool := c.isWhitespace

/-- JavaScript regex `\d`. -/
def isDigitCh (c : Char) : Bool := c.isDigit

/-- JavaScript regex `[a-z]`. -/
def isLowerAlpha (c : Char) : Bool := 'a' ≤ c && c ≤ 'z'

/-! ### Pass A: `.replace(/\b(pte|ltd|private|limited|sdn|bhd)\b/g, '')` -/

/-- The corporate-entity tokens of the first `replace`, in source order:
`pte`, `ltd`, `private`, `limited`, `sdn`, `bhd`. -/
def corpTokens : List (List Char) :=
  [['p', 't', 'e'], ['l', 't', 'd'], ['p', 'r', 'i', 'v', 'a', 't', 'e'],
   ['l', 'i', 'm', 'i', 't', 'e', 'd'], ['s', 'd', 'n'], ['b', 'h', 'd']]

/-- `\b` after a just-matched word character: next char must be a non-word
character, or the string must end. -/
def bndAfter : List Char → Bool
  | [] => true
  | c :: _ => !isWordChar c

/-- Match attempt for the first regex at the current position.  `prevW` says
whether the character before the current position is a word character (start
of string counts as non-word).  All alternatives begin with a word character,
so the leading `\b` demands `prevW = false`; the trailing `\b` is `bndAfter`.
Returns the length of the match, if any. -/
def matchA (prevW : Bool) (l : List Char) : Option Nat :=
  if prevW then none
  else
    match corpTokens.find? (fun t => t.isPrefixOf l && bndAfter (l.drop t.length)) with
    | some t => some t.length
    | none => none

/-- Global-replace-by-empty scanner for the first regex: walk the string,
delete every leftmost match, continue after it.  `fuel` only forces
termination; `fuel = l.length` always suffices. -/
def passAGo : Nat → Bool → List Char → List Char
  | 0, _, l => l
  | _ + 1, _, [] => []
  | fuel + 1, prevW, c :: rest =>
    match matchA prevW (c :: rest) with
    | some k => passAGo fuel true ((c :: rest).drop k)
    | none => c :: passAGo fuel (isWordChar c) rest

def passA (l : List Char) : List Char := passAGo l.length false l

/-! ### Pass B: `.replace(/\b(stall|#|unit|\d+[a-z]?)\s*\d+/g, '')` -/

/-- Leading-run length of characters satisfying `p`. -/
def countLead (p : Char → Bool) : List Char → Nat
  | [] => 0
  | c :: rest => if p c then countLead p rest + 1 else 0

/-- Match `\s*\d+` at the head of `l` (greedy; `\s` and `\d` are disjoint, so
no backtracking can occur here).  Returns the consumed length. -/
def tailWsDigits (l : List Char) : Option Nat :=
  let w := countLead isWs l
  let d := countLead isDigitCh (l.drop w)
  if 1 ≤ d then some (w + d) else none

/-- Match attempt for the second regex at the current position, with the
engine's backtracking order.  The alternatives `stall`, `#`, `unit`,
`\d+[a-z]?` start with pairwise distinct character classes, so at most one
alternative can fire at a given position.  The leading `\b` demands
`prevW = false` for the word-initial alternatives and `prevW = true` for `#`.
For `\d+[a-z]?`: the first `\d+` greedily takes the whole digit run `d0`;
if `[a-z]?\s*\d+` (letter first, then without) fails after it, giving back
digits lets the final `\d+` consume the rest of the run, so the match is the
bare run whenever `2 ≤ d0`. -/
def matchB (prevW : Bool) (l : List Char) : Option Nat :=
  match l with
  | [] => none
  | c :: rest =>
    if c = '#' then
      if prevW then
        match tailWsDigits rest with
        | some k => some (1 + k)
        | none => none
      else none
    else if prevW then none
    else if List.isPrefixOf ['s', 't', 'a', 'l', 'l'] l then
      match tailWsDigits (l.drop 5) with
      | some k => some (5 + k)
      | none => none
    else if List.isPrefixOf ['u', 'n', 'i', 't'] l then
      match tailWsDigits (l.drop 4) with
      | some k => some (4 + k)
      | none => none
    else if isDigitCh c then
      let d0 := countLead isDigitCh l
      match l.drop d0 with
      | x :: rest1 =>
        if isLowerAlpha x then
          match tailWsDigits rest1 with
          | some k => some (d0 + 1 + k)
          | none =>
            match tailWsDigits (x :: rest1) with
            | some k => some (d0 + k)
            | none => if 2 ≤ d0 then some d0 else none
        else
          match tailWsDigits (x :: rest1) with
          | some k => some (d0 + k)
          | none => if 2 ≤ d0 then some d0 else none
      | [] => if 2 ≤ d0 then some d0 else none
    else none

/-- Global-replace-by-empty scanner for the second regex.  Every match ends
with a digit, a word character, so `prevW` becomes `true` after a match. -/
def passBGo : Nat → Bool → List Char → List Char
  | 0, _, l => l
  | _ + 1, _, [] => []
  | fuel + 1, prevW, c :: rest =>
    match matchB prevW (c :: rest) with
    | some k => passBGo fuel true ((c :: rest).drop k)
    | none => c :: passBGo fuel (isWordChar c) rest

def passB (l : List Char) : List Char := passBGo l.length false l

/-! ### Passes 3–5: punctuation, whitespace collapse, trim -/

/-- `.replace(/[^\w\s]/g, ' ')`. -/
def punctToSpace (l : List Char) : List Char :=
  l.map fun c => if isWordChar c || isWs c then c else ' '

/-- `.replace(/\s+/g, ' ')`: every maximal whitespace run becomes one space. -/
def collapseWs : List Char → List Char
  | [] => []
  | [c] => if isWs c then [' '] else [c]
  | c :: d :: rest =>
    if isWs c && isWs d then collapseWs (d :: rest)
    else (if isWs c then ' ' else c) :: collapseWs (d :: rest)

/-- `.trim()`. -/
def trimWs (l : List Char) : List Char :=
  ((l.dropWhile isWs).reverse.dropWhile isWs).reverse

/-- Embedding of `HalalService.cleanName`. -/
def cleanName (s : String) : String :=
  String.mk (trimWs (collapseWs (punctToSpace (passB (passA (s.data.map Char.toLower))))))

example : cleanName "ABC Pte Ltd #01-23" = "abc" := by decide
example : cleanName "12pte" = "pte" := by decide
example : cleanName "pte" = "" := by decide
example : cleanName "" = "" := by decide
example : cleanName "  \t " = "" := by decide
example : cleanName "Al-Falah Restaurant" = "al falah restaurant" := by decide

/-! ### `levenshteinDistance`: the row-by-row dynamic program -/

/-- One row update of the matrix of `HalalService.levenshteinDistance`:
given row `j - 1` (`prev`), the character `c2 = str2[j-1]` and the row index
value `jv = j` (the value of `matrix[j][0]`), produce row `j`.  Column `i+1`
uses `str1[i]`, exactly the `indicator` of the source. -/
def levRowNext (s1 : List Char) (c2 : Char) (jv : Nat) (prev : Nat → Nat) : Nat → Nat
  | 0 => jv
  | i + 1 =>
    min (min (levRowNext s1 c2 jv prev i + 1) (prev (i + 1) + 1))
      (prev i + if s1.getD i ' ' = c2 then 0 else 1)

/-- Row `j` of the distance matrix (`matrix[0][i] = i` is row 0). -/
def levRowAt (s1 s2 : List Char) : Nat → Nat → Nat
  | 0 => fun i => i
  | j + 1 => levRowNext s1 (s2.getD j ' ') (j + 1) (levRowAt s1 s2 j)

/-- Embedding of `HalalService.levenshteinDistance`: the bottom-right matrix
entry `matrix[str2.length][str1.length]`. -/
def levenshteinDistance (str1 str2 : String) : Nat :=
  levRowAt str1.data str2.data str2.data.length str1.data.length

example : levenshteinDistance "kitten" "sitting" = 3 := by decide
example : levenshteinDistance "" "abc" = 3 := by decide
example : levenshteinDistance "abc" "" = 3 := by decide

/-! ### `isWordSimilar` -/

/-- The `commonVariations` table of `isWordSimilar`, in source order. -/
def commonVariations : List (String × List String) :=
  [("restaurant", ["rest", "resto"]),
   ("kitchen", ["kitchn", "kitch"]),
   ("food", ["fd"]),
   ("house", ["hse"]),
   ("corner", ["cnr"]),
   ("centre", ["center", "ctr"]),
   ("international", ["intl"]),
   ("company", ["co"]),
   ("private", ["pte", "pvt"]),
   ("limited", ["ltd"])]

/-- The abbreviation-table test of `isWordSimilar`: some entry has
`word1` as the full word and `word2` among its abbreviations, or vice versa,
or both words among the same entry's abbreviations. -/
def variationHit (word1 word2 : String) : Bool :=
  commonVariations.any fun p =>
    (word1 = p.1 && p.2.contains word2) ||
    (word2 = p.1 && p.2.contains word1) ||
    (p.2.contains word1 && p.2.contains word2)

/-- Embedding of `HalalService.isWordSimilar`.  The floating-point
`similarity >= 0.8` test is embedded over `ℚ`; the quotient is written with
`mkRat` (definitionally `(longer.length - editDistance) / longer.length`,
see `isWordSimilar_eq_spec`) so that it evaluates by kernel reduction. -/
def isWordSimilar (word1 word2 : String) : Bool :=
  if variationHit word1 word2 then true
  else
    let longer := if word1.length > word2.length then word1 else word2
    let shorter := if word1.length > word2.length then word2 else word1
    if longer.length = 0 then false
    else
      let editDistance := levenshteinDistance longer shorter
      decide (mkRat ((longer.length : Int) - (editDistance : Int)) longer.length ≥ mkRat 4 5)

/-! ### The classic Levenshtein distance and the source's dynamic program

`levSpec` is the claim-side notion: the classic unit-cost edit distance
(Mathlib's `levenshtein` with `Levenshtein.defaultCost`).  The lemmas below
show the row dynamic program of the source computes exactly this distance. -/

/-- The classic Levenshtein distance with unit-cost single-character
insertions, deletions, and substitutions. -/
def levSpec (s t : List Char) : Nat :=
  levenshtein Levenshtein.defaultCost s t

theorem levSpec_nil_left (t : List Char) : levSpec [] t = t.length := by
  induction t with
  | nil => simp [levSpec]
  | cons y ys ih =>
    unfold levSpec at *
    simp [ih]
    omega

theorem levSpec_nil_right (s : List Char) : levSpec s [] = s.length := by
  induction s with
  | nil => simp [levSpec]
  | cons x xs ih =>
    unfold levSpec at *
    simp [ih]
    omega

theorem levSpec_cons_cons (x : Char) (s : List Char) (y : Char) (t : List Char) :
    levSpec (x :: s) (y :: t) =
      min (1 + levSpec s (y :: t))
        (min (1 + levSpec (x :: s) t) ((if x = y then 0 else 1) + levSpec s t)) := by
  unfold levSpec
  simp

set_option maxHeartbeats 1600000 in
/-- Appending one character to each side satisfies the same recurrence as
prepending: the matrix recurrence of the dynamic program. -/
theorem levSpec_snoc (a b : Char) :
    ∀ (n : Nat) (u v : List Char), u.length + v.length ≤ n →
      levSpec (u ++ [a]) (v ++ [b]) =
        min (min (levSpec u (v ++ [b]) + 1) (levSpec (u ++ [a]) v + 1))
          (levSpec u v + if a = b then 0 else 1) := by
  intro n
  induction n with
  | zero =>
    intro u v h
    have hu : u = [] := List.length_eq_zero.mp (by omega)
    have hv : v = [] := List.length_eq_zero.mp (by omega)
    subst hu; subst hv
    simp only [List.nil_append, levSpec_cons_cons, levSpec_nil_left, levSpec_nil_right]
    apply le_antisymm <;> simp only [le_min_iff, min_le_iff] <;> omega
  | succ n ih =>
    intro u v h
    rcases u with _ | ⟨x, u'⟩
    · rcases v with _ | ⟨c, v'⟩
      · simp only [List.nil_append, levSpec_cons_cons, levSpec_nil_left, levSpec_nil_right]
        apply le_antisymm <;> simp only [le_min_iff, min_le_iff] <;> omega
      · have hIH := ih [] v'
          (by simp only [List.length_nil, List.length_cons] at h ⊢; omega)
        simp only [List.nil_append] at hIH ⊢
        simp only [List.cons_append, levSpec_cons_cons, levSpec_nil_left,
          List.length_cons, List.length_append, List.length_cons, List.length_nil] at hIH ⊢
        rw [hIH]
        apply le_antisymm <;> simp only [le_min_iff, min_le_iff] <;> omega
    · rcases v with _ | ⟨c, v'⟩
      · have hIH := ih u' []
          (by simp only [List.length_nil, List.length_cons] at h ⊢; omega)
        simp only [List.nil_append] at hIH ⊢
        simp only [List.cons_append, levSpec_cons_cons, levSpec_nil_right,
          List.length_cons, List.length_append, List.length_cons, List.length_nil] at hIH ⊢
        rw [hIH]
        apply le_antisymm <;> simp only [le_min_iff, min_le_iff] <;> omega
      · have hIH1 := ih u' (c :: v')
          (by simp only [List.length_cons] at h ⊢; omega)
        have hIH2 := ih (x :: u') v'
          (by simp only [List.length_cons] at h ⊢; omega)
        have hIH3 := ih u' v'
          (by simp only [List.length_cons] at h ⊢; omega)
        simp only [List.cons_append, levSpec_cons_cons] at hIH1 hIH2 hIH3 ⊢
        rw [hIH1, hIH2, hIH3]
        apply le_antisymm <;> simp only [le_min_iff, min_le_iff] <;> omega

/-- The classic Levenshtein distance is invariant under reversing both
arguments. -/
theorem levSpec_reverse :
    ∀ (n : Nat) (s t : List Char), s.length + t.length ≤ n →
      levSpec s.reverse t.reverse = levSpec s t := by
  intro n
  induction n with
  | zero =>
    intro s t h
    have hs : s = [] := List.length_eq_zero.mp (by omega)
    have ht : t = [] := List.length_eq_zero.mp (by omega)
    subst hs; subst ht
    rfl
  | succ n ih =>
    intro s t h
    rcases s with _ | ⟨x, s'⟩
    · simp [levSpec_nil_left]
    · rcases t with _ | ⟨y, t'⟩
      · simp [levSpec_nil_right]
      · simp only [List.reverse_cons]
        rw [levSpec_snoc x y (s'.reverse.length + t'.reverse.length) s'.reverse t'.reverse
          le_rfl]
        rw [show t'.reverse ++ [y] = (y :: t').reverse by simp]
        rw [show s'.reverse ++ [x] = (x :: s').reverse by simp]
        rw [ih s' (y :: t') (by simp at h ⊢; omega)]
        rw [ih (x :: s') t' (by simp at h ⊢; omega)]
        rw [ih s' t' (by simp at h ⊢; omega)]
        rw [levSpec_cons_cons]
        apply le_antisymm <;> simp only [le_min_iff, min_le_iff] <;> omega

theorem take_succ_reverse (l : List Char) (i : Nat) (hi : i < l.length) :
    (l.take (i + 1)).reverse = l.getD i ' ' :: (l.take i).reverse := by
  have hg : l.getD i ' ' = l[i] := List.getD_eq_getElem l ' ' hi
  rw [List.take_succ, List.getElem?_eq_getElem hi, hg]
  simp

/-- Each matrix entry of the source's dynamic program is the classic
distance between the corresponding reversed prefixes. -/
theorem levRowAt_eq (s1 s2 : List Char) :
    ∀ j ≤ s2.length, ∀ i ≤ s1.length,
      levRowAt s1 s2 j i = levSpec ((s1.take i).reverse) ((s2.take j).reverse) := by
  intro j
  induction j with
  | zero =>
    intro _ i hi
    simp [levRowAt, levSpec_nil_right, List.length_take, min_eq_left hi]
  | succ j ihj =>
    intro hj
    intro i
    induction i with
    | zero =>
      intro _
      have : levRowAt s1 s2 (j + 1) 0 = j + 1 := rfl
      rw [this]
      rw [show (s1.take 0).reverse = ([] : List Char) from rfl]
      rw [levSpec_nil_left]
      simp [List.length_take, min_eq_left hj]
    | succ i ihi =>
      intro hi
      have hstep : levRowAt s1 s2 (j + 1) (i + 1) =
          min (min (levRowAt s1 s2 (j + 1) i + 1) (levRowAt s1 s2 j (i + 1) + 1))
            (levRowAt s1 s2 j i + if s1.getD i ' ' = s2.getD j ' ' then 0 else 1) := rfl
      rw [hstep, ihi (by omega), ihj (by omega) i (by omega), ihj (by omega) (i + 1) (by omega)]
      rw [take_succ_reverse s1 i (by omega), take_succ_reverse s2 j (by omega)]
      rw [levSpec_cons_cons]
      apply le_antisymm <;> simp only [le_min_iff, min_le_iff] <;> omega

/-- The source's row dynamic program computes the classic Levenshtein
distance. -/
theorem levenshteinDistance_eq_levSpec (s t : String) :
    levenshteinDistance s t = levSpec s.data t.data := by
  unfold levenshteinDistance
  rw [levRowAt_eq s.data t.data t.data.length le_rfl s.data.length le_rfl]
  rw [List.take_length, List.take_length]
  exact levSpec_reverse (s.data.length + t.data.length) s.data t.data le_rfl

/-! ### The matcher: `findBestNameMatch`, `isHalal`, and the data model -/

/-- The `HalalEstablishment` record of the register payload. -/
structure HalalEstablishment where
  name : String
  address : String
  type : String
  number : String
  scheme : String
  id : String
  postal : String
deriving DecidableEq, Repr

/-- The fields of `Merchant` that the matcher reads. -/
structure Merchant where
  name : String
  postalCode : String
deriving DecidableEq, Repr

/-- JavaScript `s.split(' ')` (split on every single space character,
keeping empty fragments; `"".split(' ') = [""]`). -/
def splitSp : List Char → List (List Char)
  | [] => [[]]
  | c :: rest =>
    match splitSp rest with
    | [] => [[]]
    | w :: ws => if c = ' ' then [] :: w :: ws else (c :: w) :: ws

/-- `cleanXxx.split(' ').filter(word => word.length > 2)`. -/
def longWords (s : String) : List String :=
  ((splitSp s.data).filter fun w => 2 < w.length).map String.mk

example : longWords "al falah restaurant" = ["falah", "restaurant"] := by decide
example : longWords "" = [] := by decide

/-- JavaScript `a.includes(b)` (substring containment). -/
def strIncludes (hay needle : String) : Bool :=
  go hay.data needle.data
where
  go : List Char → List Char → Bool
    | hay, needle =>
      needle.isPrefixOf hay ||
        match hay with
        | [] => false
        | _ :: t => go t needle

example : strIncludes "abcd" "bc" = true := by decide
example : strIncludes "abcd" "" = true := by decide
example : strIncludes "ab" "abc" = false := by decide

/-- The per-entry test of the fuzzy pass: the merchant tokens matched by some
entry token via containment either way or `isWordSimilar`. -/
def matchingWords (merchantWords halalWords : List String) : List String :=
  merchantWords.filter fun word =>
    halalWords.any fun halalWord =>
      strIncludes halalWord word || strIncludes word halalWord ||
        isWordSimilar word halalWord

/-- `similarity = matchingWords.length / Math.max(merchantWords.length, halalWords.length)`
over `ℚ` (written with `mkRat` so that it evaluates by kernel reduction;
`similarityScore_eq_div` below identifies it with the quotient). -/
def similarityScore (merchantWords halalWords : List String) : ℚ :=
  mkRat (matchingWords merchantWords halalWords).length
    (max merchantWords.length halalWords.length)

/-- The strict qualification test of the fuzzy pass. -/
def qualifies (merchantWords halalWords : List String) : Bool :=
  decide (similarityScore merchantWords halalWords ≥ mkRat 9 10) &&
    decide (2 ≤ (matchingWords merchantWords halalWords).length) &&
    decide (2 ≤ merchantWords.length)

/-- The running-best update of the fuzzy loop (`bestMatch` replacement test). -/
def fuzzyStep (merchantWords : List String) (merchantPostal : String)
    (best : Option (HalalEstablishment × ℚ × Bool)) (halal : HalalEstablishment) :
    Option (HalalEstablishment × ℚ × Bool) :=
  let halalWords := longWords (cleanName halal.name)
  let similarity := similarityScore merchantWords halalWords
  let hasPostalMatch := halal.postal == merchantPostal
  if qualifies merchantWords halalWords then
    match best with
    | none => some (halal, similarity, hasPostalMatch)
    | some (_, bestSim, bestPostal) =>
      if (hasPostalMatch && !bestPostal) ||
          (hasPostalMatch == bestPostal && decide (similarity > bestSim)) then
        some (halal, similarity, hasPostalMatch)
      else best
  else best

/-- Embedding of `HalalService.findBestNameMatch`. -/
def findBestNameMatch (establishments : List HalalEstablishment)
    (merchantName merchantPostal : String) : Option (HalalEstablishment × String) :=
  let cleanMerchantName := cleanName merchantName
  match establishments.find? fun halal => cleanName halal.name == cleanMerchantName with
  | some exactNameMatch =>
    if exactNameMatch.postal == merchantPostal then
      some (exactNameMatch, "MUIS_VERIFIED_EXACT_POSTAL")
    else
      some (exactNameMatch, "MUIS_VERIFIED_EXACT_NAME")
  | none =>
    let merchantWords := longWords cleanMerchantName
    match establishments.foldl (fuzzyStep merchantWords merchantPostal) none with
    | some (e, _, hasPostal) =>
      if hasPostal then some (e, "MUIS_VERIFIED_SIMILAR_POSTAL")
      else some (e, "MUIS_VERIFIED_SIMILAR_NAME")
    | none => none

/-- The verdict of `HalalService.isHalal`. -/
structure HalalVerdict where
  isHalal : Bool
  source : String
  certNumber : Option String
deriving DecidableEq, Repr

/-- Embedding of the pure part of `HalalService.isHalal` (after
`initialize()` has completed, against the loaded entry list). -/
def isHalalCheck (halalEstablishments : List HalalEstablishment) (merchant : Merchant) :
    HalalVerdict :=
  if halalEstablishments.length = 0 then
    ⟨false, "HALAL_DATA_UNAVAILABLE", none⟩
  else
    match findBestNameMatch halalEstablishments merchant.name merchant.postalCode with
    | some (e, src) => ⟨true, src, some e.number⟩
    | none => ⟨false, "NOT_IN_OFFICIAL_RECORDS", none⟩

/-! ### The initialization lifecycle of `HalalService` -/

/-- The static state of `HalalService`. -/
structure ServiceState where
  halalEstablishments : List HalalEstablishment
  initialized : Bool
deriving DecidableEq, Repr

def initialState : ServiceState := ⟨[], false⟩

/-- Embedding of `HalalService.initialize`.  The network is abstracted as an
oracle `fetches : Nat → Option (List HalalEstablishment)` giving the outcome
of attempt 1, 2, 3 (`none` = thrown error / bad status / timeout; timeouts
and backoff delays have no further state effect).  Returns the new state and
the number of fetch attempts performed. -/
def runInitialize (st : ServiceState)
    (fetches : Nat → Option (List HalalEstablishment)) : ServiceState × Nat :=
  if st.initialized then (st, 0)
  else
    match fetches 1 with
    | some es => (⟨es, true⟩, 1)
    | none =>
      match fetches 2 with
      | some es => (⟨es, true⟩, 2)
      | none =>
        match fetches 3 with
        | some es => (⟨es, true⟩, 3)
        | none => (⟨[], true⟩, 3)

/-- One public `isHalal` call: run `initialize`, then match.  Returns the
state after the call, the number of fetch attempts it made, and the verdict. -/
def runIsHalal (st : ServiceState) (fetches : Nat → Option (List HalalEstablishment))
    (merchant : Merchant) : ServiceState × Nat × HalalVerdict :=
  let (st', n) := runInitialize st fetches
  (st', n, isHalalCheck st'.halalEstablishments merchant)

/-! ### Scanner infrastructure: fuel irrelevance and step equations -/

theorem matchA_pos (pw : Bool) (l : List Char) (k : Nat) (h : matchA pw l = some k) :
    1 ≤ k := by
  unfold matchA at h
  split at h
  · cases h
  · cases hf : corpTokens.find? (fun t => t.isPrefixOf l && bndAfter (l.drop t.length)) with
    | none => rw [hf] at h; cases h
    | some t =>
      rw [hf] at h
      cases h
      have ht := List.mem_of_find?_eq_some hf
      have : ∀ t ∈ corpTokens, 1 ≤ t.length := by decide
      exact this t ht

theorem tailWsDigits_pos (l : List Char) (k : Nat) (h : tailWsDigits l = some k) :
    1 ≤ k := by
  simp only [tailWsDigits] at h
  split at h
  · cases h; omega
  · cases h

theorem matchB_pos (pw : Bool) (l : List Char) (k : Nat) (h : matchB pw l = some k) :
    1 ≤ k := by
  rcases l with _ | ⟨c, rest⟩
  · cases h
  · simp only [matchB] at h
    repeat' (split at h)
    all_goals try cases h
    all_goals try omega
    all_goals (rename tailWsDigits _ = some _ => htl
               have := tailWsDigits_pos _ _ htl
               omega)

theorem passAGo_of_le :
    ∀ (f : Nat) (pw : Bool) (l : List Char), l.length ≤ f →
      passAGo f pw l = passAGo l.length pw l := by
  intro f
  induction f using Nat.strong_induction_on with
  | _ f ih =>
    intro pw l hl
    rcases l with _ | ⟨c, rest⟩
    · cases f <;> rfl
    · rcases f with _ | f
      · simp at hl
      · have hr : rest.length ≤ f := by simpa using hl
        cases hm : matchA pw (c :: rest) with
        | some k =>
          have hk := matchA_pos pw (c :: rest) k hm
          have hd : (List.drop k (c :: rest)).length ≤ f := by
            simp only [List.length_drop, List.length_cons]; omega
          have hd2 : (List.drop k (c :: rest)).length ≤ rest.length := by
            simp only [List.length_drop, List.length_cons]; omega
          simp only [List.length_cons, passAGo, hm]
          rw [ih f (by omega) true _ hd, ih rest.length (by omega) true _ hd2]
        | none =>
          simp only [List.length_cons, passAGo, hm]
          rw [ih f (by omega) (isWordChar c) rest hr]

/-- `passAGo` with its canonical fuel. -/
def passARun (pw : Bool) (l : List Char) : List Char := passAGo l.length pw l

theorem passA_eq_run (l : List Char) : passA l = passARun false l := rfl

theorem passARun_nil (pw : Bool) : passARun pw [] = [] := rfl

theorem passARun_cons_none (pw : Bool) (c : Char) (rest : List Char)
    (h : matchA pw (c :: rest) = none) :
    passARun pw (c :: rest) = c :: passARun (isWordChar c) rest := by
  unfold passARun
  simp only [List.length_cons, passAGo, h]

theorem passARun_cons_some (pw : Bool) (c : Char) (rest : List Char) (k : Nat)
    (h : matchA pw (c :: rest) = some k) :
    passARun pw (c :: rest) = passARun true ((c :: rest).drop k) := by
  unfold passARun
  simp only [List.length_cons, passAGo, h]
  have hk := matchA_pos pw (c :: rest) k h
  exact passAGo_of_le rest.length true _
    (by simp only [List.length_drop, List.length_cons]; omega)

theorem passBGo_of_le :
    ∀ (f : Nat) (pw : Bool) (l : List Char), l.length ≤ f →
      passBGo f pw l = passBGo l.length pw l := by
  intro f
  induction f using Nat.strong_induction_on with
  | _ f ih =>
    intro pw l hl
    rcases l with _ | ⟨c, rest⟩
    · cases f <;> rfl
    · rcases f with _ | f
      · simp at hl
      · have hr : rest.length ≤ f := by simpa using hl
        cases hm : matchB pw (c :: rest) with
        | some k =>
          have hk := matchB_pos pw (c :: rest) k hm
          have hd : (List.drop k (c :: rest)).length ≤ f := by
            simp only [List.length_drop, List.length_cons]; omega
          have hd2 : (List.drop k (c :: rest)).length ≤ rest.length := by
            simp only [List.length_drop, List.length_cons]; omega
          simp only [List.length_cons, passBGo, hm]
          rw [ih f (by omega) true _ hd, ih rest.length (by omega) true _ hd2]
        | none =>
          simp only [List.length_cons, passBGo, hm]
          rw [ih f (by omega) (isWordChar c) rest hr]

/-- `passBGo` with its canonical fuel. -/
def passBRun (pw : Bool) (l : List Char) : List Char := passBGo l.length pw l

theorem passB_eq_run (l : List Char) : passB l = passBRun false l := rfl

theorem passBRun_nil (pw : Bool) : passBRun pw [] = [] := rfl

theorem passBRun_cons_none (pw : Bool) (c : Char) (rest : List Char)
    (h : matchB pw (c :: rest) = none) :
    passBRun pw (c :: rest) = c :: passBRun (isWordChar c) rest := by
  unfold passBRun
  simp only [List.length_cons, passBGo, h]

theorem passBRun_cons_some (pw : Bool) (c : Char) (rest : List Char) (k : Nat)
    (h : matchB pw (c :: rest) = some k) :
    passBRun pw (c :: rest) = passBRun true ((c :: rest).drop k) := by
  unfold passBRun
  simp only [List.length_cons, passBGo, h]
  have hk := matchB_pos pw (c :: rest) k h
  exact passBGo_of_le rest.length true _
    (by simp only [List.length_drop, List.length_cons]; omega)

/-! ### Character-class facts and no-match lemmas -/

theorem isWordChar_of_isWs {c : Char} (h : isWs c = true) : isWordChar c = false := by
  simp only [isWs, Char.isWhitespace, Bool.or_eq_true, decide_eq_true_eq] at h
  rcases h with ((h | h) | h) | h <;> (subst h; decide)

theorem toLower_of_isWs {c : Char} (h : isWs c = true) : Char.toLower c = c := by
  simp only [isWs, Char.isWhitespace, Bool.or_eq_true, decide_eq_true_eq] at h
  rcases h with ((h | h) | h) | h <;> (subst h; decide)

theorem isDigitCh_of_not_word {c : Char} (h : isWordChar c = false) :
    isDigitCh c = false := by
  simp only [isWordChar, Bool.or_eq_false_iff, Char.isAlphanum,
    Bool.or_eq_false_iff] at h
  exact h.1.2

/-- A token that begins with a word character is never a prefix of a list
that begins with a non-word character. -/
theorem isPrefixOf_false_of_head (x : Char) (t : List Char) (c : Char) (rest : List Char)
    (hx : isWordChar x = true) (hc : isWordChar c = false) :
    (x :: t).isPrefixOf (c :: rest) = false := by
  show (x == c && t.isPrefixOf rest) = false
  cases hxc : x == c with
  | false => simp
  | true =>
    have : x = c := by simpa using hxc
    subst this
    rw [hx] at hc
    cases hc

theorem corp_no_tok (t : List Char) (ht : t ∈ corpTokens) (c : Char)
    (rest : List Char) (hc : isWordChar c = false) :
    t.isPrefixOf (c :: rest) = false := by
  simp only [corpTokens, List.mem_cons, List.not_mem_nil, or_false] at ht
  rcases ht with rfl | rfl | rfl | rfl | rfl | rfl
  · exact isPrefixOf_false_of_head 'p' _ c rest (by decide) hc
  · exact isPrefixOf_false_of_head 'l' _ c rest (by decide) hc
  · exact isPrefixOf_false_of_head 'p' _ c rest (by decide) hc
  · exact isPrefixOf_false_of_head 'l' _ c rest (by decide) hc
  · exact isPrefixOf_false_of_head 's' _ c rest (by decide) hc
  · exact isPrefixOf_false_of_head 'b' _ c rest (by decide) hc

theorem matchA_none_of_not_word (pw : Bool) (c : Char) (rest : List Char)
    (hc : isWordChar c = false) : matchA pw (c :: rest) = none := by
  unfold matchA
  split
  · rfl
  · have hf : corpTokens.find?
        (fun t => t.isPrefixOf (c :: rest) && bndAfter ((c :: rest).drop t.length)) = none := by
      rw [List.find?_eq_none]
      intro t ht
      simp [corp_no_tok t ht c rest hc]
    rw [hf]

theorem matchB_none_of_not_word (pw : Bool) (c : Char) (rest : List Char)
    (hc : isWordChar c = false) (hsharp : ¬c = '#') :
    matchB pw (c :: rest) = none := by
  simp only [matchB]
  rw [if_neg hsharp]
  split
  · rfl
  · rw [show List.isPrefixOf ['s', 't', 'a', 'l', 'l'] (c :: rest) = false from
        isPrefixOf_false_of_head 's' _ c rest (by decide) hc]
    rw [show List.isPrefixOf ['u', 'n', 'i', 't'] (c :: rest) = false from
        isPrefixOf_false_of_head 'u' _ c rest (by decide) hc]
    simp [isDigitCh_of_not_word hc]

/-! ### Whitespace-only inputs normalize to the empty string -/

theorem passARun_of_all_ws (pw : Bool) :
    ∀ l : List Char, (∀ c ∈ l, isWs c = true) → passARun pw l = l := by
  intro l
  induction l generalizing pw with
  | nil => intro _; rfl
  | cons c rest ih =>
    intro h
    have hc : isWs c = true := h c (List.mem_cons_self c rest)
    rw [passARun_cons_none pw c rest (matchA_none_of_not_word pw c rest (isWordChar_of_isWs hc))]
    rw [ih (isWordChar c) fun d hd => h d (List.mem_cons_of_mem c hd)]

theorem passBRun_of_all_ws (pw : Bool) :
    ∀ l : List Char, (∀ c ∈ l, isWs c = true) → passBRun pw l = l := by
  intro l
  induction l generalizing pw with
  | nil => intro _; rfl
  | cons c rest ih =>
    intro h
    have hc : isWs c = true := h c (List.mem_cons_self c rest)
    have hsharp : ¬c = '#' := by
      intro hcc; subst hcc; cases hc
    rw [passBRun_cons_none pw c rest
      (matchB_none_of_not_word pw c rest (isWordChar_of_isWs hc) hsharp)]
    rw [ih (isWordChar c) fun d hd => h d (List.mem_cons_of_mem c hd)]

theorem punctToSpace_of_word_ws :
    ∀ l : List Char, (∀ c ∈ l, isWordChar c || isWs c) → punctToSpace l = l := by
  intro l
  induction l with
  | nil => intro _; rfl
  | cons c rest ih =>
    intro h
    have hc := h c (List.mem_cons_self c rest)
    have hrest := ih fun d hd => h d (List.mem_cons_of_mem c hd)
    calc punctToSpace (c :: rest)
        = (if (isWordChar c || isWs c) = true then c else ' ') :: punctToSpace rest := rfl
      _ = c :: rest := by rw [if_pos hc, hrest]

theorem collapseWs_of_all_ws :
    ∀ l : List Char, l ≠ [] → (∀ c ∈ l, isWs c = true) → collapseWs l = [' '] := by
  intro l
  induction l with
  | nil => intro h; cases h rfl
  | cons c rest ih =>
    intro _ h
    have hc : isWs c = true := h c (List.mem_cons_self c rest)
    rcases rest with _ | ⟨d, rest'⟩
    · simp [collapseWs, hc]
    · have hd : isWs d = true := h d (List.mem_cons_of_mem c (List.mem_cons_self d rest'))
      rw [show collapseWs (c :: d :: rest') = collapseWs (d :: rest') by
        simp [collapseWs, hc, hd]]
      exact ih (by simp) fun e he => h e (List.mem_cons_of_mem c he)

theorem cleanName_of_all_ws (s : String) (h : ∀ c ∈ s.data, isWs c = true) :
    cleanName s = "" := by
  unfold cleanName
  have h1 : ∀ c ∈ s.data.map Char.toLower, isWs c = true := by
    intro c hc
    rcases List.mem_map.mp hc with ⟨d, hd, rfl⟩
    rw [toLower_of_isWs (h d hd)]
    exact h d hd
  rw [passA_eq_run, passARun_of_all_ws false _ h1, passB_eq_run,
    passBRun_of_all_ws false _ h1,
    punctToSpace_of_word_ws _ (fun c hc => by rw [h1 c hc]; simp)]
  rcases he : s.data.map Char.toLower with _ | ⟨c, rest⟩
  · rfl
  · rw [← he, collapseWs_of_all_ws _ (by rw [he]; simp) h1]
    rfl

/-! ### Idempotence infrastructure for `cleanName`

`cleanName` is not idempotent in general (see the C7 counterexample); it is
idempotent on inputs with no ASCII digit, which the following development
proves.  It proceeds in stages: (1) the unit-number pass is the identity on
digit-free strings; (2) the corporate-token scanner's output admits no
further match (`noA`), and that property survives the punctuation,
whitespace-collapse, and trim passes; (3) `cleanName`'s output is
lowercase-fixed, digit-free and canonically spaced, so every pass of a
second run is the identity. -/

theorem find?_congr_mem {α : Type} (p q : α → Bool) :
    ∀ l : List α, (∀ a ∈ l, p a = q a) → l.find? p = l.find? q := by
  intro l
  induction l with
  | nil => intro _; rfl
  | cons a t ih =>
    intro h
    have ha := h a (List.mem_cons_self a t)
    simp only [List.find?]
    rw [ha]
    cases q a
    · exact ih fun b hb => h b (List.mem_cons_of_mem a hb)
    · rfl

/-- `toLower` either fixes a character or shifts an ASCII uppercase letter
into `[97, 122]`. -/
theorem toLower_eq_or (c : Char) :
    Char.toLower c = c ∨
      (65 ≤ c.toNat ∧ c.toNat ≤ 90 ∧ (Char.toLower c).toNat = c.toNat + 32) := by
  by_cases h : c.toNat ≥ 65 ∧ c.toNat ≤ 90
  · right
    refine ⟨h.1, h.2, ?_⟩
    have h1 : Char.toLower c = Char.ofNat (c.toNat + 32) := if_pos h
    rw [h1]
    unfold Char.ofNat
    rw [dif_pos (Or.inl (by omega : c.toNat + 32 < 55296))]
    rfl
  · left
    exact if_neg h

theorem toLower_idem (c : Char) : Char.toLower (Char.toLower c) = Char.toLower c := by
  rcases toLower_eq_or c with h | ⟨h65, h90, hval⟩
  · rw [h]
    exact h
  · have hno : ¬((Char.toLower c).toNat ≥ 65 ∧ (Char.toLower c).toNat ≤ 90) := by omega
    exact if_neg hno

theorem isDigit_iff_toNat (c : Char) :
    isDigitCh c = true ↔ (48 ≤ c.toNat ∧ c.toNat ≤ 57) := by
  simp only [isDigitCh, Char.isDigit, Bool.and_eq_true, decide_eq_true_eq, ge_iff_le,
    UInt32.le_def]
  constructor <;> intro h <;> exact ⟨h.1, h.2⟩

theorem isDigitCh_toLower (c : Char) : isDigitCh (Char.toLower c) = isDigitCh c := by
  rcases toLower_eq_or c with h | ⟨h65, h90, hval⟩
  · rw [h]
  · have h1 : isDigitCh (Char.toLower c) = false := by
      rw [Bool.eq_false_iff]
      intro hx
      rw [isDigit_iff_toNat] at hx
      omega
    have h2 : isDigitCh c = false := by
      rw [Bool.eq_false_iff]
      intro hx
      rw [isDigit_iff_toNat] at hx
      omega
    rw [h1, h2]

/-! #### Pass B is the identity on digit-free strings -/

theorem countLead_pos_digit (p : Char → Bool) :
    ∀ l : List Char, 1 ≤ countLead p l → ∃ c ∈ l, p c = true := by
  intro l
  cases l with
  | nil => intro h; cases h
  | cons c rest =>
    intro h
    simp only [countLead] at h
    by_cases hc : p c = true
    · exact ⟨c, List.mem_cons_self c rest, hc⟩
    · rw [if_neg hc] at h
      cases h

theorem tailWsDigits_digit (l : List Char) (k : Nat) (h : tailWsDigits l = some k) :
    ∃ c ∈ l, isDigitCh c = true := by
  simp only [tailWsDigits] at h
  split at h
  · rename_i hd
    obtain ⟨c, hc, hdig⟩ := countLead_pos_digit isDigitCh _ hd
    exact ⟨c, List.drop_subset _ _ hc, hdig⟩
  · cases h

theorem matchB_some_digit (pw : Bool) (l : List Char) (k : Nat)
    (h : matchB pw l = some k) : ∃ c ∈ l, isDigitCh c = true := by
  rcases l with _ | ⟨c, rest⟩
  · cases h
  · simp only [matchB] at h
    repeat' (split at h)
    all_goals try cases h
    all_goals try (exact ⟨c, List.mem_cons_self c rest, by assumption⟩)
    all_goals
      (rename tailWsDigits _ = some _ => htl
       obtain ⟨d, hd, hdig⟩ := tailWsDigits_digit _ _ htl
       first
        | exact ⟨d, List.mem_cons_of_mem c hd, hdig⟩
        | exact ⟨d, List.drop_subset _ _ hd, hdig⟩
        | (rename List.drop _ _ = _ :: _ => hdrop
           refine ⟨d, ?_, hdig⟩
           have : d ∈ List.drop (countLead isDigitCh (c :: rest)) (c :: rest) := by
             rw [hdrop]
             exact List.mem_cons_of_mem _ hd
           exact List.drop_subset _ _ this)
        | (rename List.drop _ _ = _ :: _ => hdrop
           refine ⟨d, ?_, hdig⟩
           have : d ∈ List.drop (countLead isDigitCh (c :: rest)) (c :: rest) := by
             rw [hdrop]
             exact hd
           exact List.drop_subset _ _ this))

theorem passBRun_of_no_digit (pw : Bool) :
    ∀ l : List Char, (∀ c ∈ l, isDigitCh c = false) → passBRun pw l = l := by
  intro l
  induction l generalizing pw with
  | nil => intro _; rfl
  | cons c rest ih =>
    intro h
    cases hm : matchB pw (c :: rest) with
    | some k =>
      obtain ⟨d, hd, hdig⟩ := matchB_some_digit pw (c :: rest) k hm
      rw [h d hd] at hdig
      cases hdig
    | none =>
      rw [passBRun_cons_none pw c rest hm]
      rw [ih (isWordChar c) fun d hd => h d (List.mem_cons_of_mem c hd)]

/-! #### Characters of scanner/pass outputs come from the input -/

theorem mem_passARun_aux :
    ∀ (n : Nat) (pw : Bool) (l : List Char), l.length ≤ n →
      ∀ c, c ∈ passARun pw l → c ∈ l := by
  intro n
  induction n with
  | zero =>
    intro pw l hl c h
    have : l = [] := List.length_eq_zero.mp (by omega)
    subst this
    simpa [passARun_nil] using h
  | succ n ihn =>
    intro pw l hl c h
    cases l with
    | nil => simpa [passARun_nil] using h
    | cons d rest =>
      cases hm : matchA pw (d :: rest) with
      | some k =>
        rw [passARun_cons_some pw d rest k hm] at h
        have hk := matchA_pos _ _ _ hm
        have hlen : ((d :: rest).drop k).length ≤ n := by
          simp only [List.length_cons] at hl
          simp only [List.length_drop, List.length_cons]
          omega
        exact List.drop_subset _ _ (ihn true _ hlen c h)
      | none =>
        rw [passARun_cons_none pw d rest hm] at h
        rcases List.mem_cons.mp h with rfl | h2
        · exact List.mem_cons_self _ _
        · refine List.mem_cons_of_mem _ (ihn (isWordChar d) rest ?_ c h2)
          simp only [List.length_cons] at hl
          omega

theorem mem_passARun (pw : Bool) (l : List Char) (c : Char) (h : c ∈ passARun pw l) :
    c ∈ l :=
  mem_passARun_aux l.length pw l le_rfl c h

theorem mem_passBRun_aux :
    ∀ (n : Nat) (pw : Bool) (l : List Char), l.length ≤ n →
      ∀ c, c ∈ passBRun pw l → c ∈ l := by
  intro n
  induction n with
  | zero =>
    intro pw l hl c h
    have : l = [] := List.length_eq_zero.mp (by omega)
    subst this
    simpa [passBRun_nil] using h
  | succ n ihn =>
    intro pw l hl c h
    cases l with
    | nil => simpa [passBRun_nil] using h
    | cons d rest =>
      cases hm : matchB pw (d :: rest) with
      | some k =>
        rw [passBRun_cons_some pw d rest k hm] at h
        have hk := matchB_pos _ _ _ hm
        have hlen : ((d :: rest).drop k).length ≤ n := by
          simp only [List.length_cons] at hl
          simp only [List.length_drop, List.length_cons]
          omega
        exact List.drop_subset _ _ (ihn true _ hlen c h)
      | none =>
        rw [passBRun_cons_none pw d rest hm] at h
        rcases List.mem_cons.mp h with rfl | h2
        · exact List.mem_cons_self _ _
        · refine List.mem_cons_of_mem _ (ihn (isWordChar d) rest ?_ c h2)
          simp only [List.length_cons] at hl
          omega

theorem mem_passBRun (pw : Bool) (l : List Char) (c : Char) (h : c ∈ passBRun pw l) :
    c ∈ l :=
  mem_passBRun_aux l.length pw l le_rfl c h

theorem mem_punctToSpace (l : List Char) (c : Char) (h : c ∈ punctToSpace l) :
    c = ' ' ∨ c ∈ l := by
  unfold punctToSpace at h
  rcases List.mem_map.mp h with ⟨d, hd, hfd⟩
  by_cases hw : (isWordChar d || isWs d) = true
  · right
    rw [if_pos hw] at hfd
    rwa [← hfd]
  · left
    rw [if_neg hw] at hfd
    exact hfd.symm

theorem mem_collapseWs :
    ∀ (l : List Char) (c : Char), c ∈ collapseWs l → c = ' ' ∨ c ∈ l := by
  intro l
  induction l with
  | nil => intro c h; cases h
  | cons d rest ih =>
    intro c h
    cases rest with
    | nil =>
      simp only [collapseWs] at h
      split at h
      · left
        simpa using h
      · right
        simpa using h
    | cons e rest' =>
      simp only [collapseWs] at h
      split at h
      · rcases ih c h with h' | h'
        · exact Or.inl h'
        · exact Or.inr (List.mem_cons_of_mem d h')
      · rcases List.mem_cons.mp h with rfl | h'
        · split
          · exact Or.inl rfl
          · exact Or.inr (List.mem_cons_self _ _)
        · rcases ih c h' with h'' | h''
          · exact Or.inl h''
          · exact Or.inr (List.mem_cons_of_mem d h'')

theorem mem_trimWs (l : List Char) (c : Char) (h : c ∈ trimWs l) : c ∈ l := by
  unfold trimWs at h
  rw [List.mem_reverse] at h
  have h1 := (List.dropWhile_sublist _).subset h
  rw [List.mem_reverse] at h1
  exact (List.dropWhile_sublist _).subset h1

/-! #### `noA`: no corporate-token match at any scan position -/

/-- `noA pw l`: scanning `l` with previous-character word status `pw`, the
first regex matches at no position. -/
def noA : Bool → List Char → Prop
  | _, [] => True
  | pw, c :: rest => matchA pw (c :: rest) = none ∧ noA (isWordChar c) rest

theorem noA_run_id (pw : Bool) :
    ∀ l : List Char, noA pw l → passARun pw l = l := by
  intro l
  induction l generalizing pw with
  | nil => intro _; rfl
  | cons c rest ih =>
    intro h
    rw [passARun_cons_none pw c rest h.1, ih (isWordChar c) h.2]

theorem matchA_true_none (l : List Char) : matchA true l = none := by
  unfold matchA
  rw [if_pos rfl]

theorem passARun_true_cons (c : Char) (rest : List Char) :
    passARun true (c :: rest) = c :: passARun (isWordChar c) rest :=
  passARun_cons_none _ _ _ (matchA_true_none _)

theorem matchA_some_bnd (pw : Bool) (l : List Char) (k : Nat)
    (h : matchA pw l = some k) : bndAfter (l.drop k) = true := by
  unfold matchA at h
  split at h
  · cases h
  · cases hf : corpTokens.find? (fun t => t.isPrefixOf l && bndAfter (l.drop t.length)) with
    | none => rw [hf] at h; cases h
    | some t =>
      rw [hf] at h
      cases h
      have := List.find?_some hf
      exact (Bool.and_eq_true _ _ |>.mp this).2

/-- Prefix-plus-trailing-boundary tests by an all-word-character token are
unaffected by scanning the rest with `prevW = true` (such a scan preserves
every character up to and including the first non-word character). -/
theorem tok_through_passA_true :
    ∀ t : List Char, (∀ ch ∈ t, isWordChar ch = true) →
      ∀ rest : List Char,
        (t.isPrefixOf (passARun true rest) &&
          bndAfter ((passARun true rest).drop t.length)) =
        (t.isPrefixOf rest && bndAfter (rest.drop t.length)) := by
  intro t
  induction t with
  | nil =>
    intro _ rest
    cases rest with
    | nil => rfl
    | cons d r => rw [passARun_true_cons]; rfl
  | cons x t' ih =>
    intro hword rest
    have hx : isWordChar x = true := hword x (List.mem_cons_self x t')
    cases rest with
    | nil => rfl
    | cons d r =>
      rw [passARun_true_cons]
      show (((x == d) && t'.isPrefixOf (passARun (isWordChar d) r)) &&
          bndAfter ((passARun (isWordChar d) r).drop t'.length)) =
        (((x == d) && t'.isPrefixOf r) && bndAfter (r.drop t'.length))
      cases hxd : x == d with
      | false => simp
      | true =>
        have hxd' : x = d := by simpa using hxd
        subst hxd'
        rw [hx]
        simp only [Bool.true_and]
        exact ih (fun ch hch => hword ch (List.mem_cons_of_mem x hch)) r

/-- The per-token predicate of `matchA` transfers through a `prevW = true`
scan of the tail. -/
theorem pred_cons_through (x : Char) (t' : List Char)
    (hword : ∀ ch ∈ t', isWordChar ch = true) (c : Char) (rest : List Char) :
    ((x :: t').isPrefixOf (c :: passARun true rest) &&
      bndAfter ((c :: passARun true rest).drop (x :: t').length)) =
    ((x :: t').isPrefixOf (c :: rest) && bndAfter ((c :: rest).drop (x :: t').length)) := by
  show (((x == c) && t'.isPrefixOf (passARun true rest)) &&
      bndAfter ((passARun true rest).drop t'.length)) =
    (((x == c) && t'.isPrefixOf rest) && bndAfter (rest.drop t'.length))
  cases hxc : x == c with
  | false => simp
  | true =>
    simp only [Bool.true_and]
    exact tok_through_passA_true t' hword rest

theorem matchA_through (pw : Bool) (c : Char) (rest : List Char) :
    matchA pw (c :: passARun true rest) = matchA pw (c :: rest) := by
  unfold matchA
  split
  · rfl
  · rw [find?_congr_mem]
    intro t ht
    simp only [corpTokens, List.mem_cons, List.not_mem_nil, or_false] at ht
    rcases ht with rfl | rfl | rfl | rfl | rfl | rfl <;>
      exact pred_cons_through _ _ (by decide) c rest

/-- The corporate-token scanner's output admits no further match. -/
theorem noA_passARun_aux :
    ∀ (n : Nat) (pw : Bool) (l : List Char), l.length ≤ n →
      noA pw (passARun pw l) := by
  intro n
  induction n with
  | zero =>
    intro pw l hl
    have : l = [] := List.length_eq_zero.mp (by omega)
    subst this
    rw [passARun_nil]
    trivial
  | succ n ihn =>
    intro pw l hl
    cases l with
    | nil => rw [passARun_nil]; trivial
    | cons c rest =>
      cases hm : matchA pw (c :: rest) with
      | some k =>
        rw [passARun_cons_some pw c rest k hm]
        have hk := matchA_pos _ _ _ hm
        have hbnd := matchA_some_bnd pw _ k hm
        cases hdrop : (c :: rest).drop k with
        | nil => rw [passARun_nil]; trivial
        | cons d r =>
          rw [hdrop] at hbnd
          have hdw : isWordChar d = false := by
            simp only [bndAfter, Bool.not_eq_true'] at hbnd
            exact hbnd
          rw [passARun_cons_none true d r (matchA_none_of_not_word true d r hdw)]
          refine ⟨matchA_none_of_not_word pw d _ hdw, ?_⟩
          rw [hdw]
          have hlen : r.length ≤ n := by
            have : (d :: r).length = (c :: rest).length - k := by
              rw [← hdrop, List.length_drop]
            simp only [List.length_cons] at this hl
            omega
          exact ihn false r hlen
      | none =>
        rw [passARun_cons_none pw c rest hm]
        have hrest : rest.length ≤ n := by
          simp only [List.length_cons] at hl
          omega
        refine ⟨?_, ihn (isWordChar c) rest hrest⟩
        cases hw : isWordChar c with
        | false => exact matchA_none_of_not_word pw c _ hw
        | true =>
          rw [matchA_through pw c rest]
          exact hm

theorem noA_passARun (pw : Bool) (l : List Char) : noA pw (passARun pw l) :=
  noA_passARun_aux l.length pw l le_rfl

/-! #### `noA` survives the punctuation pass -/

/-- The generic congruence: `matchA` at a position only looks at the first
character and at word-token prefix/boundary tests of the tail. -/
theorem matchA_congr_tail (pw : Bool) (c : Char) (L R : List Char)
    (h : ∀ t' : List Char, (∀ ch ∈ t', isWordChar ch = true) →
      (t'.isPrefixOf L && bndAfter (L.drop t'.length)) =
      (t'.isPrefixOf R && bndAfter (R.drop t'.length))) :
    matchA pw (c :: L) = matchA pw (c :: R) := by
  unfold matchA
  split
  · rfl
  · rw [find?_congr_mem]
    intro t ht
    simp only [corpTokens, List.mem_cons, List.not_mem_nil, or_false] at ht
    have step : ∀ (x : Char) (t' : List Char), (∀ ch ∈ t', isWordChar ch = true) →
        ((x :: t').isPrefixOf (c :: L) && bndAfter ((c :: L).drop (x :: t').length)) =
        ((x :: t').isPrefixOf (c :: R) && bndAfter ((c :: R).drop (x :: t').length)) := by
      intro x t' ht'
      show (((x == c) && t'.isPrefixOf L) && bndAfter (L.drop t'.length)) =
        (((x == c) && t'.isPrefixOf R) && bndAfter (R.drop t'.length))
      cases hxc : x == c with
      | false => simp
      | true =>
        simp only [Bool.true_and]
        exact h t' ht'
    rcases ht with rfl | rfl | rfl | rfl | rfl | rfl <;> exact step _ _ (by decide)

theorem punctChar_word (c : Char) :
    isWordChar (if (isWordChar c || isWs c) = true then c else ' ') = isWordChar c := by
  split
  · rfl
  · rename_i h
    have hcw : isWordChar c = false := by
      cases hw : isWordChar c
      · rfl
      · exact absurd (by rw [hw]; rfl) h
    rw [hcw]
    decide

theorem beq_punctChar (x c : Char) (hx : isWordChar x = true) :
    (x == (if (isWordChar c || isWs c) = true then c else ' ')) = (x == c) := by
  split
  · rfl
  · rename_i h
    have hcw : isWordChar c = false := by
      cases hw : isWordChar c
      · rfl
      · exact absurd (by rw [hw]; rfl) h
    have h1 : (x == ' ') = false := by
      cases hxs : x == ' '
      · rfl
      · have : x = ' ' := by simpa using hxs
        subst this
        cases hx
    have h2 : (x == c) = false := by
      cases hxc : x == c
      · rfl
      · have : x = c := by simpa using hxc
        subst this
        rw [hx] at hcw
        cases hcw
    rw [h1, h2]

theorem tok_through_punct :
    ∀ t : List Char, (∀ ch ∈ t, isWordChar ch = true) → ∀ l : List Char,
      (t.isPrefixOf (punctToSpace l) && bndAfter ((punctToSpace l).drop t.length)) =
      (t.isPrefixOf l && bndAfter (l.drop t.length)) := by
  intro t
  induction t with
  | nil =>
    intro _ l
    cases l with
    | nil => rfl
    | cons c r =>
      show (true && !isWordChar (if (isWordChar c || isWs c) = true then c else ' ')) =
        (true && !isWordChar c)
      rw [punctChar_word]
  | cons x t' ih =>
    intro hword l
    have hx := hword x (List.mem_cons_self x t')
    cases l with
    | nil => rfl
    | cons c r =>
      show (((x == (if (isWordChar c || isWs c) = true then c else ' ')) &&
          t'.isPrefixOf (punctToSpace r)) &&
          bndAfter ((punctToSpace r).drop t'.length)) =
        (((x == c) && t'.isPrefixOf r) && bndAfter (r.drop t'.length))
      rw [beq_punctChar x c hx]
      cases hxc : x == c with
      | false => simp
      | true =>
        simp only [Bool.true_and]
        exact ih (fun ch hch => hword ch (List.mem_cons_of_mem x hch)) r

theorem noA_punct : ∀ (l : List Char) (pw : Bool), noA pw l → noA pw (punctToSpace l) := by
  intro l
  induction l with
  | nil => intro pw _; trivial
  | cons c r ih =>
    intro pw h
    obtain ⟨h1, h2⟩ := h
    show noA pw ((if (isWordChar c || isWs c) = true then c else ' ') :: punctToSpace r)
    refine ⟨?_, ?_⟩
    · by_cases hcw : isWordChar c = true
      · have hfc : (if (isWordChar c || isWs c) = true then c else ' ') = c :=
          if_pos (by rw [hcw]; rfl)
        rw [hfc, matchA_congr_tail pw c _ r fun t' ht' => tok_through_punct t' ht' r]
        exact h1
      · exact matchA_none_of_not_word pw _ _
          (by rw [punctChar_word]; exact Bool.not_eq_true _ |>.mp hcw)
    · have := ih (isWordChar c) h2
      rwa [punctChar_word c] at *

/-! #### `noA` survives the whitespace-collapse pass -/

theorem collapseWs_cons_not_ws (c : Char) (r : List Char) (hc : isWs c = false) :
    collapseWs (c :: r) = c :: collapseWs r := by
  cases r with
  | nil => simp [collapseWs, hc]
  | cons d r' => simp [collapseWs, hc]

theorem collapseWs_head_status :
    ∀ (r : List Char) (c : Char), isWs c = true → ∃ r', collapseWs (c :: r) = ' ' :: r' := by
  intro r
  induction r with
  | nil => intro c hc; exact ⟨[], by simp [collapseWs, hc]⟩
  | cons d r' ih =>
    intro c hc
    by_cases hd : isWs d = true
    · obtain ⟨r'', hr⟩ := ih d hd
      refine ⟨r'', ?_⟩
      rw [show collapseWs (c :: d :: r') = collapseWs (d :: r') by simp [collapseWs, hc, hd]]
      exact hr
    · refine ⟨collapseWs (d :: r'), ?_⟩
      rw [show collapseWs (c :: d :: r') =
        (if isWs c then ' ' else c) :: collapseWs (d :: r') by
          simp only [collapseWs]
          rw [if_neg (by simp [Bool.not_eq_true _ |>.mp hd])]]
      rw [if_pos hc]

theorem tok_through_collapse :
    ∀ t : List Char, (∀ ch ∈ t, isWordChar ch = true) → ∀ l : List Char,
      (t.isPrefixOf (collapseWs l) && bndAfter ((collapseWs l).drop t.length)) =
      (t.isPrefixOf l && bndAfter (l.drop t.length)) := by
  intro t
  induction t with
  | nil =>
    intro _ l
    cases l with
    | nil => rfl
    | cons c r =>
      by_cases hc : isWs c = true
      · obtain ⟨r', hr⟩ := collapseWs_head_status r c hc
        rw [hr]
        show (true && !isWordChar ' ') = (true && !isWordChar c)
        rw [isWordChar_of_isWs hc]
        decide
      · rw [collapseWs_cons_not_ws c r (Bool.not_eq_true _ |>.mp hc)]
        rfl
  | cons x t' ih =>
    intro hword l
    have hx := hword x (List.mem_cons_self x t')
    cases l with
    | nil => rfl
    | cons c r =>
      by_cases hc : isWs c = true
      · obtain ⟨r', hr⟩ := collapseWs_head_status r c hc
        rw [hr]
        have h1 : (x == ' ') = false := by
          cases hxs : x == ' '
          · rfl
          · have : x = ' ' := by simpa using hxs
            subst this
            cases hx
        have h2 : (x == c) = false := by
          cases hxc : x == c
          · rfl
          · have : x = c := by simpa using hxc
            subst this
            rw [isWordChar_of_isWs hc] at hx
            cases hx
        show (((x == ' ') && t'.isPrefixOf r') && bndAfter (r'.drop t'.length)) =
          (((x == c) && t'.isPrefixOf r) && bndAfter (r.drop t'.length))
        rw [h1, h2]
        simp
      · rw [collapseWs_cons_not_ws c r (Bool.not_eq_true _ |>.mp hc)]
        show (((x == c) && t'.isPrefixOf (collapseWs r)) &&
            bndAfter ((collapseWs r).drop t'.length)) =
          (((x == c) && t'.isPrefixOf r) && bndAfter (r.drop t'.length))
        cases hxc : x == c with
        | false => simp
        | true =>
          simp only [Bool.true_and]
          exact ih (fun ch hch => hword ch (List.mem_cons_of_mem x hch)) r

theorem noA_pw_irrel (pw1 pw2 : Bool) (c : Char) (r : List Char)
    (hc : isWordChar c = false) (h : noA pw1 (c :: r)) : noA pw2 (c :: r) :=
  ⟨matchA_none_of_not_word pw2 c r hc, h.2⟩

theorem noA_collapse : ∀ (l : List Char) (pw : Bool), noA pw l → noA pw (collapseWs l) := by
  intro l
  induction l with
  | nil => intro pw _; trivial
  | cons c rest ih =>
    intro pw h
    obtain ⟨h1, h2⟩ := h
    cases rest with
    | nil =>
      by_cases hc : isWs c = true
      · rw [show collapseWs [c] = [' '] by simp [collapseWs, hc]]
        exact ⟨matchA_none_of_not_word pw ' ' [] (by decide), trivial⟩
      · rw [show collapseWs [c] = [c] by simp [collapseWs, hc]]
        exact ⟨h1, trivial⟩
    | cons d rest' =>
      by_cases hcd : isWs c = true ∧ isWs d = true
      · rw [show collapseWs (c :: d :: rest') = collapseWs (d :: rest') by
          simp [collapseWs, hcd.1, hcd.2]]
        have hnext : noA false (d :: rest') := by
          rw [isWordChar_of_isWs hcd.1] at h2
          exact h2
        have hcol := ih false hnext
        obtain ⟨r', hr⟩ := collapseWs_head_status rest' d hcd.2
        rw [hr] at hcol ⊢
        exact noA_pw_irrel false pw ' ' r' (by decide) hcol
      · have hemit : collapseWs (c :: d :: rest') =
            (if isWs c then ' ' else c) :: collapseWs (d :: rest') := by
          simp only [collapseWs]
          rw [if_neg (by
            intro hand
            exact hcd (by simpa using hand))]
        rw [hemit]
        by_cases hc : isWs c = true
        · rw [if_pos hc]
          have hnext : noA false (d :: rest') := by
            rw [isWordChar_of_isWs hc] at h2
            exact h2
          exact ⟨matchA_none_of_not_word pw ' ' _ (by decide), ih false hnext⟩
        · rw [if_neg hc]
          refine ⟨?_, ih (isWordChar c) h2⟩
          by_cases hcw : isWordChar c = true
          · rw [matchA_congr_tail pw c _ (d :: rest')
              fun t' ht' => tok_through_collapse t' ht' (d :: rest')]
            exact h1
          · exact matchA_none_of_not_word pw c _ (Bool.not_eq_true _ |>.mp hcw)

/-! #### `noA` survives trimming -/

theorem noA_dropWhile_ws : ∀ l : List Char, noA false l → noA false (l.dropWhile isWs) := by
  intro l
  induction l with
  | nil => intro _; trivial
  | cons c r ih =>
    intro h
    by_cases hc : isWs c = true
    · rw [List.dropWhile_cons_of_pos hc]
      have h2 : noA (isWordChar c) r := h.2
      rw [isWordChar_of_isWs hc] at h2
      exact ih h2
    · rw [List.dropWhile_cons_of_neg (by simp [Bool.not_eq_true _ |>.mp hc])]
      exact h

theorem bndAfter_append_ws (X w : List Char) (hw : ∀ c ∈ w, isWs c = true) :
    bndAfter (X ++ w) = bndAfter X := by
  cases X with
  | nil =>
    cases w with
    | nil => rfl
    | cons d w' =>
      show (!isWordChar d) = true
      rw [isWordChar_of_isWs (hw d (List.mem_cons_self d w'))]
      rfl
  | cons d X' => rfl

theorem matchA_append_ws_none (pw : Bool) (c : Char) (X w : List Char)
    (hw : ∀ c' ∈ w, isWs c' = true)
    (h : matchA pw (c :: (X ++ w)) = none) : matchA pw (c :: X) = none := by
  cases pw with
  | true => exact matchA_true_none _
  | false =>
    have hfind : corpTokens.find?
        (fun t => t.isPrefixOf (c :: (X ++ w)) &&
          bndAfter ((c :: (X ++ w)).drop t.length)) = none := by
      unfold matchA at h
      rw [if_neg (by simp)] at h
      cases hf : corpTokens.find?
          (fun t => t.isPrefixOf (c :: (X ++ w)) &&
            bndAfter ((c :: (X ++ w)).drop t.length)) with
      | none => rfl
      | some t => rw [hf] at h; cases h
    rw [List.find?_eq_none] at hfind
    unfold matchA
    rw [if_neg (by simp)]
    have hnone : corpTokens.find?
        (fun t => t.isPrefixOf (c :: X) && bndAfter ((c :: X).drop t.length)) = none := by
      rw [List.find?_eq_none]
      intro t ht
      intro hcontra
      apply hfind t ht
      obtain ⟨hpre, hbnd⟩ := Bool.and_eq_true _ _ |>.mp hcontra
      have hpre' : t <+: (c :: X) := List.isPrefixOf_iff_prefix.mp hpre
      have hlen : t.length ≤ (c :: X).length := hpre'.length_le
      rw [Bool.and_eq_true]
      constructor
      · rw [List.isPrefixOf_iff_prefix]
        calc t <+: (c :: X) := hpre'
          _ <+: (c :: X) ++ w := List.prefix_append _ _
      · rw [show (c :: (X ++ w)) = (c :: X) ++ w from rfl,
          List.drop_append_of_le_length hlen, bndAfter_append_ws _ w hw]
        exact hbnd
    rw [hnone]

theorem noA_rdrop : ∀ (u w : List Char), (∀ c ∈ w, isWs c = true) →
    ∀ pw, noA pw (u ++ w) → noA pw u := by
  intro u
  induction u with
  | nil => intro w hw pw _; trivial
  | cons c u' ih =>
    intro w hw pw h
    obtain ⟨h1, h2⟩ := h
    exact ⟨matchA_append_ws_none pw c u' w hw h1, ih w hw (isWordChar c) h2⟩

theorem rdrop_decomp (A : List Char) :
    ∃ w, (∀ c ∈ w, isWs c = true) ∧ A = (A.reverse.dropWhile isWs).reverse ++ w := by
  refine ⟨(A.reverse.takeWhile isWs).reverse, ?_, ?_⟩
  · intro c hc
    rw [List.mem_reverse] at hc
    exact List.mem_takeWhile_imp hc
  · have hsplit := List.takeWhile_append_dropWhile (p := isWs) (l := A.reverse)
    calc A = A.reverse.reverse := (List.reverse_reverse A).symm
      _ = (List.takeWhile isWs A.reverse ++ List.dropWhile isWs A.reverse).reverse := by
          rw [hsplit]
      _ = (List.dropWhile isWs A.reverse).reverse ++
            (List.takeWhile isWs A.reverse).reverse := by
          rw [List.reverse_append]

theorem noA_trimWs (l : List Char) (h : noA false l) : noA false (trimWs l) := by
  have h1 := noA_dropWhile_ws l h
  obtain ⟨w, hw, hdec⟩ := rdrop_decomp (l.dropWhile isWs)
  have htrim : trimWs l = ((l.dropWhile isWs).reverse.dropWhile isWs).reverse := rfl
  rw [htrim]
  apply noA_rdrop _ w hw false
  rw [← hdec]
  exact h1

/-! ### Second-run identities: `cleanName` is idempotent on digit-free input -/

theorem map_toLower_id (l : List Char) (h : ∀ c ∈ l, Char.toLower c = c) :
    l.map Char.toLower = l := by
  induction l with
  | nil => rfl
  | cons c rest ih =>
    simp only [List.map_cons]
    rw [h c (List.mem_cons_self c rest), ih fun d hd => h d (List.mem_cons_of_mem c hd)]

theorem punctToSpace_chars (l : List Char) (c : Char) (h : c ∈ punctToSpace l) :
    (isWordChar c || isWs c) = true := by
  unfold punctToSpace at h
  rcases List.mem_map.mp h with ⟨d, _, hfd⟩
  by_cases hw : (isWordChar d || isWs d) = true
  · rw [if_pos hw] at hfd
    rw [← hfd]
    exact hw
  · rw [if_neg hw] at hfd
    rw [← hfd]
    decide

/-- Canonical spacing: every whitespace character is `' '` and no two
adjacent characters are both whitespace. -/
def canonSp : List Char → Prop
  | [] => True
  | [c] => isWs c = true → c = ' '
  | c :: d :: rest =>
    (isWs c = true → c = ' ') ∧ (isWs c = false ∨ isWs d = false) ∧ canonSp (d :: rest)

theorem canonSp_of_cons (c : Char) (r : List Char) (h : canonSp (c :: r)) :
    canonSp r := by
  rcases r with _ | ⟨d, r'⟩
  · trivial
  · exact h.2.2

theorem canonSp_cons (c : Char) (X : List Char)
    (hhead : isWs c = true → c = ' ')
    (hpair : ∀ e Y, X = e :: Y → isWs c = false ∨ isWs e = false)
    (hX : canonSp X) : canonSp (c :: X) := by
  rcases X with _ | ⟨e, Y⟩
  · exact hhead
  · exact ⟨hhead, hpair e Y rfl, hX⟩

theorem collapseWs_single (c : Char) :
    collapseWs [c] = if isWs c then [' '] else [c] := rfl

theorem collapseWs_cons2_merge (c d : Char) (r : List Char)
    (h : (isWs c && isWs d) = true) :
    collapseWs (c :: d :: r) = collapseWs (d :: r) := by
  simp [collapseWs, h]

theorem collapseWs_cons2_emit (c d : Char) (r : List Char)
    (h : (isWs c && isWs d) = false) :
    collapseWs (c :: d :: r) = (if isWs c then ' ' else c) :: collapseWs (d :: r) := by
  simp only [collapseWs]
  rw [if_neg (by rw [h]; exact Bool.false_ne_true)]

theorem canonSp_collapseWs : ∀ l : List Char, canonSp (collapseWs l) := by
  intro l
  induction l with
  | nil => trivial
  | cons c rest ih =>
    rcases rest with _ | ⟨d, rest'⟩
    · rw [collapseWs_single]
      by_cases hc : isWs c = true
      · rw [if_pos hc]
        intro _
        rfl
      · rw [if_neg hc]
        intro hw
        exact absurd hw hc
    · cases hcd : (isWs c && isWs d) with
      | true =>
        rw [collapseWs_cons2_merge c d rest' hcd]
        exact ih
      | false =>
        rw [collapseWs_cons2_emit c d rest' hcd]
        apply canonSp_cons
        · cases hc : isWs c with
          | true =>
            intro _
            rfl
          | false =>
            show isWs c = true → c = ' '
            intro hw
            rw [hw] at hc
            cases hc
        · intro e Y hXeq
          cases hc : isWs c with
          | true =>
            right
            have hd : isWs d = false := by
              cases hdv : isWs d
              · rfl
              · rw [hc, hdv] at hcd; cases hcd
            rw [collapseWs_cons_not_ws d rest' hd] at hXeq
            have he : d = e := by injection hXeq
            rw [← he]
            exact hd
          | false =>
            exact Or.inl hc
        · exact ih

theorem collapseWs_of_canon : ∀ l : List Char, canonSp l → collapseWs l = l := by
  intro l
  induction l with
  | nil => intro _; rfl
  | cons c rest ih =>
    intro h
    rcases rest with _ | ⟨d, rest'⟩
    · rw [collapseWs_single]
      by_cases hc : isWs c = true
      · rw [if_pos hc, h hc]
      · rw [if_neg hc]
    · obtain ⟨h1, h2, h3⟩ := h
      have hcd : (isWs c && isWs d) = false := by
        rcases h2 with h' | h' <;> simp [h']
      rw [collapseWs_cons2_emit c d rest' hcd, ih h3]
      by_cases hc : isWs c = true
      · rw [if_pos hc, h1 hc]
      · rw [if_neg hc]

theorem canonSp_append_right :
    ∀ u v : List Char, canonSp (u ++ v) → canonSp v := by
  intro u
  induction u with
  | nil => intro v h; exact h
  | cons c u' ih =>
    intro v h
    exact ih v (canonSp_of_cons c (u' ++ v) h)

theorem canonSp_head (c : Char) (r : List Char) (h : canonSp (c :: r)) :
    isWs c = true → c = ' ' := by
  rcases r with _ | ⟨d, r'⟩
  · exact h
  · exact h.1

theorem canonSp_append_left :
    ∀ u v : List Char, canonSp (u ++ v) → canonSp u := by
  intro u
  induction u with
  | nil => intro _ _; trivial
  | cons c u' ih =>
    intro v h
    simp only [List.cons_append] at h
    rcases u' with _ | ⟨d, u''⟩
    · exact canonSp_head c ([] ++ v) h
    · simp only [List.cons_append] at h
      exact ⟨h.1, h.2.1, ih v (by simpa using h.2.2)⟩

theorem dropWhile_head_false (p : Char → Bool) (l : List Char) :
    l.dropWhile p = [] ∨ ∃ c r, l.dropWhile p = c :: r ∧ p c = false := by
  induction l with
  | nil => exact Or.inl rfl
  | cons c rest ih =>
    cases hp : p c with
    | true =>
      rw [List.dropWhile_cons, if_pos hp]
      exact ih
    | false =>
      rw [List.dropWhile_cons, if_neg (by rw [hp]; exact Bool.false_ne_true)]
      exact Or.inr ⟨c, rest, rfl, hp⟩

theorem trimWs_pref (l : List Char) : trimWs l <+: l.dropWhile isWs := by
  have h1 : ((l.dropWhile isWs).reverse.dropWhile isWs) <:+ (l.dropWhile isWs).reverse :=
    List.dropWhile_suffix isWs
  have h2 := List.reverse_prefix.mpr h1
  simpa [trimWs] using h2

theorem trimWs_idem (l : List Char) : trimWs (trimWs l) = trimWs l := by
  have hpre := trimWs_pref l
  have hdrop1 : (trimWs l).dropWhile isWs = trimWs l := by
    rcases htl : trimWs l with _ | ⟨x, r⟩
    · rfl
    · rcases dropWhile_head_false isWs l with hA | ⟨a, as, hA, ha⟩
      · rw [htl, hA] at hpre
        exact absurd hpre (by simp)
      · rw [htl, hA] at hpre
        obtain ⟨t, ht⟩ := hpre
        simp only [List.cons_append] at ht
        have hx : x = a := by injection ht
        rw [List.dropWhile_cons, hx, if_neg (by rw [ha]; exact Bool.false_ne_true)]
  show (((trimWs l).dropWhile isWs).reverse.dropWhile isWs).reverse = trimWs l
  rw [hdrop1]
  have hdrop2 : (trimWs l).reverse.dropWhile isWs = (trimWs l).reverse := by
    have hrev : (trimWs l).reverse = (l.dropWhile isWs).reverse.dropWhile isWs := by
      simp [trimWs]
    rw [hrev]
    rcases dropWhile_head_false isWs (l.dropWhile isWs).reverse with hC | ⟨c0, cr, hC, hc0⟩
    · rw [hC]; rfl
    · rw [hC, List.dropWhile_cons, if_neg (by rw [hc0]; exact Bool.false_ne_true)]
  rw [hdrop2, List.reverse_reverse]

theorem canonSp_trimWs (l : List Char) (h : canonSp l) : canonSp (trimWs l) := by
  have hA : canonSp (l.dropWhile isWs) := by
    obtain ⟨u, hu⟩ := List.dropWhile_suffix isWs (l := l)
    rw [← hu] at h
    exact canonSp_append_right u _ h
  obtain ⟨t, ht⟩ := trimWs_pref l
  rw [← ht] at hA
  exact canonSp_append_left _ t hA

/-- Every character of a cleaned name is a space or comes from the
lowercased input. -/
theorem cleanName_mem (s : String) (c : Char) (hc : c ∈ (cleanName s).data) :
    c = ' ' ∨ c ∈ s.data.map Char.toLower := by
  have h0 : (cleanName s).data
      = trimWs (collapseWs (punctToSpace (passB (passA (s.data.map Char.toLower))))) := rfl
  rw [h0] at hc
  have h1 := mem_trimWs _ c hc
  rcases mem_collapseWs _ c h1 with h' | h2
  · exact Or.inl h'
  rcases mem_punctToSpace _ c h2 with h' | h3
  · exact Or.inl h'
  · right
    have h4 := mem_passBRun false _ c (by rw [← passB_eq_run]; exact h3)
    exact mem_passARun false _ c (by rw [← passA_eq_run]; exact h4)

theorem cleanName_toLower_fixed (s : String) (c : Char)
    (hc : c ∈ (cleanName s).data) : Char.toLower c = c := by
  rcases cleanName_mem s c hc with rfl | h
  · decide
  · rcases List.mem_map.mp h with ⟨d, _, rfl⟩
    exact toLower_idem d

theorem cleanName_no_digit (s : String) (h : ∀ c ∈ s.data, isDigitCh c = false)
    (c : Char) (hc : c ∈ (cleanName s).data) : isDigitCh c = false := by
  rcases cleanName_mem s c hc with rfl | hm
  · decide
  · rcases List.mem_map.mp hm with ⟨d, hd, rfl⟩
    rw [isDigitCh_toLower]
    exact h d hd

theorem cleanName_word_ws (s : String) (c : Char)
    (hc : c ∈ (cleanName s).data) : (isWordChar c || isWs c) = true := by
  have h0 : (cleanName s).data
      = trimWs (collapseWs (punctToSpace (passB (passA (s.data.map Char.toLower))))) := rfl
  rw [h0] at hc
  have h1 := mem_trimWs _ c hc
  rcases mem_collapseWs _ c h1 with rfl | h2
  · decide
  · exact punctToSpace_chars _ c h2

theorem cleanName_canonSp (s : String) : canonSp (cleanName s).data := by
  have h0 : (cleanName s).data
      = trimWs (collapseWs (punctToSpace (passB (passA (s.data.map Char.toLower))))) := rfl
  rw [h0]
  exact canonSp_trimWs _ (canonSp_collapseWs _)

theorem cleanName_noA (s : String) (h : ∀ c ∈ s.data, isDigitCh c = false) :
    noA false (cleanName s).data := by
  have hL1nd : ∀ c ∈ passA (s.data.map Char.toLower), isDigitCh c = false := by
    intro c hc
    have hc0 := mem_passARun false _ c (by rw [← passA_eq_run]; exact hc)
    rcases List.mem_map.mp hc0 with ⟨d, hd, rfl⟩
    rw [isDigitCh_toLower]
    exact h d hd
  have hB : passB (passA (s.data.map Char.toLower)) = passA (s.data.map Char.toLower) := by
    rw [passB_eq_run]
    exact passBRun_of_no_digit false _ hL1nd
  have h0 : (cleanName s).data
      = trimWs (collapseWs (punctToSpace (passB (passA (s.data.map Char.toLower))))) := rfl
  rw [h0, hB]
  apply noA_trimWs
  apply noA_collapse _ false
  apply noA_punct _ false
  rw [passA_eq_run]
  exact noA_passARun false _

/-- On digit-free input, `cleanName` is idempotent: its output consists of
lowercase-fixed word characters and single interior spaces, matches neither
removal regex, and is already trimmed, so a second run is the identity. -/
theorem cleanName_idem_of_no_digit (s : String)
    (hnd : ∀ c ∈ s.data, isDigitCh c = false) :
    cleanName (cleanName s) = cleanName s := by
  have hOlow := cleanName_toLower_fixed s
  have hOnd := cleanName_no_digit s hnd
  have hOword := cleanName_word_ws s
  have hOnoA := cleanName_noA s hnd
  have hOcanon := cleanName_canonSp s
  show String.mk (trimWs (collapseWs (punctToSpace
      (passB (passA ((cleanName s).data.map Char.toLower)))))) = cleanName s
  rw [map_toLower_id (cleanName s).data hOlow]
  rw [show passA (cleanName s).data = (cleanName s).data by
    rw [passA_eq_run]; exact noA_run_id false _ hOnoA]
  rw [show passB (cleanName s).data = (cleanName s).data by
    rw [passB_eq_run]; exact passBRun_of_no_digit false _ hOnd]
  rw [punctToSpace_of_word_ws (cleanName s).data hOword]
  rw [collapseWs_of_canon (cleanName s).data hOcanon]
  rw [show trimWs (cleanName s).data = (cleanName s).data from trimWs_idem _]

/-! ### The fuzzy fold -/

/-- A merchant token list with fewer than two (length > 2) tokens can never
produce a fuzzy candidate: the fold stays at `none`. -/
theorem fuzzyFold_of_short (mw : List String) (postal : String) (hmw : mw.length < 2) :
    ∀ l : List HalalEstablishment,
      List.foldl (fuzzyStep mw postal) none l = none := by
  intro l
  induction l with
  | nil => rfl
  | cons e t ih =>
    have hq : qualifies mw (longWords (cleanName e.name)) = false := by
      unfold qualifies
      have : decide (2 ≤ mw.length) = false := by
        simp; omega
      simp [this]
    have hstep : fuzzyStep mw postal none e = none := by
      unfold fuzzyStep
      simp [hq]
    simpa [List.foldl, hstep] using ih

/-! ## Claims

The spec's verdict names map onto the source's strings as
`EXACT_NAME_POSTAL` = `"MUIS_VERIFIED_EXACT_POSTAL"`,
`EXACT_NAME` = `"MUIS_VERIFIED_EXACT_NAME"`,
`SIMILAR_NAME_POSTAL` = `"MUIS_VERIFIED_SIMILAR_POSTAL"`,
`SIMILAR_NAME` = `"MUIS_VERIFIED_SIMILAR_NAME"`,
`NOT_FOUND` = `"NOT_IN_OFFICIAL_RECORDS"`,
`REGISTER_UNAVAILABLE` = `"HALAL_DATA_UNAVAILABLE"`. -/

theorem similarityScore_eq_div (mw hw : List String) :
    similarityScore mw hw =
      ((matchingWords mw hw).length : ℚ) / (max mw.length hw.length : ℚ) := by
  unfold similarityScore
  rw [Rat.mkRat_eq_divInt, Rat.divInt_eq_div]
  push_cast
  rfl

theorem mkRat_nine_tenths : mkRat 9 10 = (9 : ℚ) / 10 := by
  rw [Rat.mkRat_eq_divInt, Rat.divInt_eq_div]
  norm_num

/-- If the merchant's cleaned name yields fewer than two tokens of length > 2,
the fuzzy pass can never fire, so any returned verdict is an exact one. -/
theorem short_tokens_no_similar (reg : List HalalEstablishment) (name postal : String)
    (hshort : (longWords (cleanName name)).length < 2) :
    ∀ e src, findBestNameMatch reg name postal = some (e, src) →
      src = "MUIS_VERIFIED_EXACT_POSTAL" ∨ src = "MUIS_VERIFIED_EXACT_NAME" := by
  intro e src hfind
  simp only [findBestNameMatch] at hfind
  rcases hf : reg.find? (fun h => cleanName h.name == cleanName name) with _ | e'
  · simp only [hf, fuzzyFold_of_short _ _ hshort reg] at hfind
    cases hfind
  · simp only [hf] at hfind
    split at hfind <;> (cases hfind; simp)

/-- C9 (confirmed): `normalize("ABC Pte Ltd #01-23") = "abc"`: lowercasing,
corporate-suffix removal, unit-number removal, punctuation replacement and
whitespace collapsing together erase the corporate and unit tokens. -/
theorem C9_normalize_concrete : cleanName "ABC Pte Ltd #01-23" = "abc" := by decide

/-- C7 (counterexample): normalization is NOT idempotent for all strings.
On `"12pte"` the unit-number regex `\b(stall|#|unit|\d+[a-z]?)\s*\d+`
matches only the digits `12` (the engine backtracks the optional `[a-z]`,
takes `1` as the `\d+[a-z]?` alternative and `2` as the final `\d+`),
leaving `"pte"`; a second run then removes `pte` as a corporate token,
so `cleanName (cleanName "12pte") ≠ cleanName "12pte"`. -/
theorem C7_counterexample :
    cleanName "12pte" = "pte" ∧ cleanName (cleanName "12pte") = "" ∧
      cleanName (cleanName "12pte") ≠ cleanName "12pte" := by decide

/-- C7 (amended): normalization is idempotent on every input with no ASCII
digit: if no character of `s` matches `\d`, then
`cleanName (cleanName s) = cleanName s`.  (When digits are present, removing
a `\d+[a-z]?\s*\d+` match can splice a fresh corporate token into existence,
as in the `"12pte"` counterexample.) -/
theorem C7_amended_idem_digit_free (s : String)
    (hnd : ∀ c ∈ s.data, isDigitCh c = false) :
    cleanName (cleanName s) = cleanName s :=
  cleanName_idem_of_no_digit s hnd

theorem C7_amended_idem_digit_free_witness :
    (∀ c ∈ ("Al-Falah Restaurant Pte Ltd").data, isDigitCh c = false) ∧
      cleanName (cleanName "Al-Falah Restaurant Pte Ltd") =
        cleanName "Al-Falah Restaurant Pte Ltd" :=
  ⟨by decide, C7_amended_idem_digit_free "Al-Falah Restaurant Pte Ltd" (by decide)⟩

/-- C3 (counterexample): with two exact-name matches in register order where
only the second has the merchant's postal code, the matcher returns the
first one with verdict `EXACT_NAME`; it does not scan all exact matches for
a postal-matching one. -/
theorem C3_counterexample :
    findBestNameMatch
        [⟨"abc", "", "", "C1", "", "", "000000"⟩, ⟨"abc", "", "", "C2", "", "", "111111"⟩]
        "abc" "111111"
      = some (⟨"abc", "", "", "C1", "", "", "000000"⟩, "MUIS_VERIFIED_EXACT_NAME") := by
  decide

/-- C3 (amended): the exact pass returns the *first* authority entry (in
register order) whose normalized name equals the normalized merchant name,
and only that entry's postal code decides between `EXACT_NAME_POSTAL` and
`EXACT_NAME`; later exact matches are never examined. -/
theorem C3_amended_first_exact_wins (reg : List HalalEstablishment)
    (name postal : String) (e : HalalEstablishment)
    (hfind : reg.find? (fun h => cleanName h.name == cleanName name) = some e) :
    findBestNameMatch reg name postal =
      some (e, if e.postal == postal then "MUIS_VERIFIED_EXACT_POSTAL"
               else "MUIS_VERIFIED_EXACT_NAME") := by
  simp only [findBestNameMatch]
  rw [hfind]
  by_cases h : e.postal == postal <;> simp [h]

theorem C3_amended_first_exact_wins_witness :
    findBestNameMatch
        [⟨"abc", "", "", "C1", "", "", "000000"⟩, ⟨"abc", "", "", "C2", "", "", "111111"⟩]
        "abc" "111111"
      = some (⟨"abc", "", "", "C1", "", "", "000000"⟩, "MUIS_VERIFIED_EXACT_NAME") := by
  have h := C3_amended_first_exact_wins
    [⟨"abc", "", "", "C1", "", "", "000000"⟩, ⟨"abc", "", "", "C2", "", "", "111111"⟩]
    "abc" "111111" ⟨"abc", "", "", "C1", "", "", "000000"⟩ (by decide)
  simpa using h

/-- Whenever the matcher returns a match, the evidence source is one of the
four match strings of `findBestNameMatch`. -/
theorem findBestNameMatch_sources (reg : List HalalEstablishment)
    (name postal : String) (e : HalalEstablishment) (src : String)
    (h : findBestNameMatch reg name postal = some (e, src)) :
    src = "MUIS_VERIFIED_EXACT_POSTAL" ∨ src = "MUIS_VERIFIED_EXACT_NAME" ∨
    src = "MUIS_VERIFIED_SIMILAR_POSTAL" ∨ src = "MUIS_VERIFIED_SIMILAR_NAME" := by
  simp only [findBestNameMatch] at h
  split at h
  · split at h <;> (cases h; simp)
  · split at h
    · split at h <;> (cases h; simp)
    · cases h

/-- C5 (confirmed): the certificate-number field is present iff `isHalal` is
true; `REGISTER_UNAVAILABLE` / `NOT_FOUND` verdicts are negative with no
certificate; and a positive verdict carries the matched entry's certificate
number. -/
theorem C5_cert_iff_halal (est : List HalalEstablishment) (m : Merchant) :
    ((isHalalCheck est m).certNumber.isSome ↔ (isHalalCheck est m).isHalal = true) ∧
    ((isHalalCheck est m).source = "HALAL_DATA_UNAVAILABLE" ∨
        (isHalalCheck est m).source = "NOT_IN_OFFICIAL_RECORDS" →
      (isHalalCheck est m).isHalal = false ∧ (isHalalCheck est m).certNumber = none) ∧
    ((isHalalCheck est m).isHalal = true →
      ∃ e src, findBestNameMatch est m.name m.postalCode = some (e, src) ∧
        (isHalalCheck est m).certNumber = some e.number ∧
        (isHalalCheck est m).source = src) := by
  unfold isHalalCheck
  split
  · simp
  · rcases hfb : findBestNameMatch est m.name m.postalCode with _ | ⟨e, src⟩ <;>
      simp only [hfb]
    · simp
    · have hs := findBestNameMatch_sources est m.name m.postalCode e src hfb
      refine ⟨by simp, ?_, ?_⟩
      · rcases hs with h | h | h | h <;> simp [h]
      · intro
        exact ⟨e, src, rfl, rfl, rfl⟩

theorem C5_cert_iff_halal_witness :
    ∃ e src,
      findBestNameMatch [⟨"pte", "", "", "C9", "", "", "123456"⟩] "" "999999" = some (e, src) ∧
      (isHalalCheck [⟨"pte", "", "", "C9", "", "", "123456"⟩] ⟨"", "999999"⟩).certNumber =
        some e.number ∧
      (isHalalCheck [⟨"pte", "", "", "C9", "", "", "123456"⟩] ⟨"", "999999"⟩).source = src :=
  (C5_cert_iff_halal [⟨"pte", "", "", "C9", "", "", "123456"⟩] ⟨"", "999999"⟩).2.2 (by decide)

/-- C4 (confirmed): after the register load has failed on all 3 attempts the
unavailable state is latched for the process: the failing call makes exactly
3 fetch attempts and returns the `REGISTER_UNAVAILABLE` verdict with no
certificate, and every later call (with any fetch oracle) makes 0 fetch
attempts, leaves the state unchanged, and returns the same
`REGISTER_UNAVAILABLE` verdict — no keyword fallback is consulted. -/
theorem C4_unavailable_is_permanent
    (fetches : Nat → Option (List HalalEstablishment)) (m : Merchant)
    (h1 : fetches 1 = none) (h2 : fetches 2 = none) (h3 : fetches 3 = none) :
    runIsHalal initialState fetches m =
      (⟨[], true⟩, 3, ⟨false, "HALAL_DATA_UNAVAILABLE", none⟩) ∧
    ∀ (fetches2 : Nat → Option (List HalalEstablishment)) (m2 : Merchant),
      runIsHalal ⟨[], true⟩ fetches2 m2 =
        (⟨[], true⟩, 0, ⟨false, "HALAL_DATA_UNAVAILABLE", none⟩) := by
  constructor
  · simp [runIsHalal, runInitialize, initialState, h1, h2, h3, isHalalCheck]
  · intro fetches2 m2
    simp [runIsHalal, runInitialize, isHalalCheck]

theorem C4_unavailable_is_permanent_witness :
    runIsHalal initialState (fun _ => none) ⟨"Al-Falah Restaurant", "520123"⟩ =
      (⟨[], true⟩, 3, ⟨false, "HALAL_DATA_UNAVAILABLE", none⟩) ∧
    ∀ (fetches2 : Nat → Option (List HalalEstablishment)) (m2 : Merchant),
      runIsHalal ⟨[], true⟩ fetches2 m2 =
        (⟨[], true⟩, 0, ⟨false, "HALAL_DATA_UNAVAILABLE", none⟩) :=
  C4_unavailable_is_permanent (fun _ => none) ⟨"Al-Falah Restaurant", "520123"⟩
    rfl rfl rfl

/-- C10 (confirmed, implicit claim): a fetch that succeeds with an empty JSON
array is stored as an empty loaded entry set, which the public interface
cannot distinguish from a permanently failed load: the call that loaded it
and every subsequent call return the `REGISTER_UNAVAILABLE` verdict (never
`NOT_FOUND`), exactly as after three failed attempts. -/
theorem C10_empty_register_indistinguishable
    (fetches : Nat → Option (List HalalEstablishment)) (m : Merchant)
    (h1 : fetches 1 = some []) :
    runIsHalal initialState fetches m =
      (⟨[], true⟩, 1, ⟨false, "HALAL_DATA_UNAVAILABLE", none⟩) ∧
    (∀ (fetches2 : Nat → Option (List HalalEstablishment)) (m2 : Merchant),
       runIsHalal ⟨[], true⟩ fetches2 m2 =
         (⟨[], true⟩, 0, ⟨false, "HALAL_DATA_UNAVAILABLE", none⟩)) ∧
    (isHalalCheck [] m).source ≠ "NOT_IN_OFFICIAL_RECORDS" := by
  refine ⟨?_, ?_, ?_⟩
  · simp [runIsHalal, runInitialize, initialState, h1, isHalalCheck]
  · intro fetches2 m2
    simp [runIsHalal, runInitialize, isHalalCheck]
  · simp [isHalalCheck]

/-- C1 (confirmed): an authority entry qualifies as a fuzzy candidate iff
`|matchingWords| / max(|merchantTokens|, |entryTokens|) ≥ 0.9` and
`|matchingWords| ≥ 2` and `|merchantTokens| ≥ 2`; consequently a merchant
whose cleaned name has fewer than two tokens of length > 2 never yields a
`SIMILAR_NAME` or `SIMILAR_NAME_POSTAL` verdict. -/
theorem C1_fuzzy_gate (reg : List HalalEstablishment) (name postal : String) :
    (∀ mw hw : List String,
       qualifies mw hw = true ↔
         (((matchingWords mw hw).length : ℚ) / (max mw.length hw.length : ℚ) ≥ 9 / 10 ∧
          2 ≤ (matchingWords mw hw).length ∧ 2 ≤ mw.length)) ∧
    ((longWords (cleanName name)).length < 2 →
      ∀ e src, findBestNameMatch reg name postal = some (e, src) →
        src = "MUIS_VERIFIED_EXACT_POSTAL" ∨ src = "MUIS_VERIFIED_EXACT_NAME") := by
  constructor
  · intro mw hw
    unfold qualifies
    rw [Bool.and_eq_true, Bool.and_eq_true]
    simp only [decide_eq_true_eq]
    rw [similarityScore_eq_div, mkRat_nine_tenths]
    tauto
  · exact short_tokens_no_similar reg name postal

theorem C1_fuzzy_gate_witness :
    ∀ e src,
      findBestNameMatch [⟨"kitchen", "", "", "K1", "", "", "111111"⟩] "kitchen" "111111"
        = some (e, src) →
      src = "MUIS_VERIFIED_EXACT_POSTAL" ∨ src = "MUIS_VERIFIED_EXACT_NAME" :=
  (C1_fuzzy_gate [⟨"kitchen", "", "", "K1", "", "", "111111"⟩] "kitchen" "111111").2
    (by decide)

/-- Invariant of the running-best accumulator of the fuzzy loop over the
prefix `seen` of the register: `none` means no entry qualifies so far; a
`some (e, s, p)` best is a qualifying seen entry carrying its own similarity
and postal status, it is postal-matching whenever any seen qualifying entry
is, and it has maximal similarity among seen qualifying entries of its own
postal status. -/
def fuzzyInv (mw : List String) (postal : String) (seen : List HalalEstablishment)
    (acc : Option (HalalEstablishment × ℚ × Bool)) : Prop :=
  match acc with
  | none => ∀ h ∈ seen, ¬qualifies mw (longWords (cleanName h.name)) = true
  | some (e, s, p) =>
      e ∈ seen ∧ qualifies mw (longWords (cleanName e.name)) = true ∧
      s = similarityScore mw (longWords (cleanName e.name)) ∧
      p = (e.postal == postal) ∧
      (p = false → ∀ h ∈ seen, qualifies mw (longWords (cleanName h.name)) = true →
        (h.postal == postal) = false) ∧
      (∀ h ∈ seen, qualifies mw (longWords (cleanName h.name)) = true →
        (h.postal == postal) = p →
        similarityScore mw (longWords (cleanName h.name)) ≤ s)

theorem fuzzyInv_step (mw : List String) (postal : String)
    (seen : List HalalEstablishment) (acc : Option (HalalEstablishment × ℚ × Bool))
    (x : HalalEstablishment) (hinv : fuzzyInv mw postal seen acc) :
    fuzzyInv mw postal (seen ++ [x]) (fuzzyStep mw postal acc x) := by
  by_cases hq : qualifies mw (longWords (cleanName x.name)) = true
  · rcases acc with _ | ⟨e, s, p⟩
    · have hstep : fuzzyStep mw postal none x =
          some (x, similarityScore mw (longWords (cleanName x.name)), x.postal == postal) := by
        simp [fuzzyStep, hq]
      rw [hstep]
      refine ⟨by simp, hq, rfl, rfl, ?_, ?_⟩
      · intro hp h hmem hqh
        rcases List.mem_append.mp hmem with hmem | hmem
        · exact absurd hqh (hinv h hmem)
        · rw [List.mem_singleton.mp hmem]
          exact hp
      · intro h hmem hqh _
        rcases List.mem_append.mp hmem with hmem | hmem
        · exact absurd hqh (hinv h hmem)
        · rw [List.mem_singleton.mp hmem]
    · obtain ⟨hmem, hqe, hs, hp, hnp, hmax⟩ := hinv
      by_cases hc : (((x.postal == postal) && !p) ||
          ((x.postal == postal) == p &&
            decide (similarityScore mw (longWords (cleanName x.name)) > s))) = true
      · have hstep : fuzzyStep mw postal (some (e, s, p)) x =
            some (x, similarityScore mw (longWords (cleanName x.name)), x.postal == postal) := by
          simp only [fuzzyStep, hq, if_pos]
          rw [if_pos hc]
        rw [hstep]
        refine ⟨by simp, hq, rfl, rfl, ?_, ?_⟩
        · -- new best has no postal match: then the old one had none either,
          -- and no new-postal replacement happened
          intro hxp h hmem hqh
          rcases Bool.or_eq_true _ _ |>.mp hc with hc1 | hc1
          · rw [hxp] at hc1
            simp at hc1
          · have hxep : (x.postal == postal) = p := by
              have := (Bool.and_eq_true _ _).mp hc1 |>.1
              simpa using this
            rcases List.mem_append.mp hmem with hmem' | hmem'
            · exact hnp (by rw [← hxep, hxp]) h hmem' hqh
            · rw [List.mem_singleton.mp hmem']
              exact hxp
        · -- maximality among the new best's postal class
          intro h hmem hqh hclass
          rcases List.mem_append.mp hmem with hmem' | hmem'
          · rcases Bool.or_eq_true _ _ |>.mp hc with hc1 | hc1
            · -- replacement because x is postal-matching and old best was not:
              -- seen entries of x's class do not exist
              obtain ⟨hxp, hpneg⟩ := (Bool.and_eq_true _ _).mp hc1
              have hpf : p = false := by
                cases p
                · rfl
                · simp at hpneg
              have := hnp hpf h hmem' hqh
              rw [hclass, hxp] at this
              cases this
            · -- replacement by strictly larger similarity within the class
              obtain ⟨hxep, hgt⟩ := (Bool.and_eq_true _ _).mp hc1
              have hxep' : (x.postal == postal) = p := by simpa using hxep
              have hgt' := of_decide_eq_true hgt
              exact le_of_lt (lt_of_le_of_lt (hmax h hmem' hqh (by rw [hclass, hxep'])) hgt')
          · rw [List.mem_singleton.mp hmem']
      · have hstep : fuzzyStep mw postal (some (e, s, p)) x = some (e, s, p) := by
          simp only [fuzzyStep, hq, if_pos]
          rw [if_neg (by simpa using hc)]
        rw [hstep]
        refine ⟨List.mem_append_left _ hmem, hqe, hs, hp, ?_, ?_⟩
        · intro hpf h hmem' hqh
          rcases List.mem_append.mp hmem' with hmem'' | hmem''
          · exact hnp hpf h hmem'' hqh
          · rw [List.mem_singleton.mp hmem'']
            -- if x were postal-matching, the replacement would have fired
            cases hxp : (x.postal == postal)
            · rfl
            · rw [hpf] at hc
              rw [hxp] at hc
              simp at hc
        · intro h hmem' hqh hclass
          rcases List.mem_append.mp hmem' with hmem'' | hmem''
          · exact hmax h hmem'' hqh hclass
          · rw [List.mem_singleton.mp hmem''] at hclass ⊢
            -- x is in the best's class but did not replace it: similarity ≤ s
            rw [hclass] at hc
            simp only [Bool.or_eq_true, Bool.and_eq_true, beq_self_eq_true,
              true_and, not_or, not_and] at hc
            have := hc.2
            simpa using this
  · have hstep : fuzzyStep mw postal acc x = acc := by
      unfold fuzzyStep
      simp [hq]
    rw [hstep]
    rcases acc with _ | ⟨e, s, p⟩
    · intro h hmem hqh
      rcases List.mem_append.mp hmem with hmem' | hmem'
      · exact hinv h hmem' hqh
      · rw [List.mem_singleton.mp hmem'] at hqh
        exact hq hqh
    · obtain ⟨hmem, hqe, hs, hp, hnp, hmax⟩ := hinv
      refine ⟨List.mem_append_left _ hmem, hqe, hs, hp, ?_, ?_⟩
      · intro hpf h hmem' hqh
        rcases List.mem_append.mp hmem' with hmem'' | hmem''
        · exact hnp hpf h hmem'' hqh
        · rw [List.mem_singleton.mp hmem''] at hqh
          exact absurd hqh hq
      · intro h hmem' hqh hclass
        rcases List.mem_append.mp hmem' with hmem'' | hmem''
        · exact hmax h hmem'' hqh hclass
        · rw [List.mem_singleton.mp hmem''] at hqh
          exact absurd hqh hq

theorem fuzzyInv_fold (mw : List String) (postal : String) :
    ∀ (l seen : List HalalEstablishment) (acc : Option (HalalEstablishment × ℚ × Bool)),
      fuzzyInv mw postal seen acc →
      fuzzyInv mw postal (seen ++ l) (List.foldl (fuzzyStep mw postal) acc l) := by
  intro l
  induction l with
  | nil => intro seen acc h; simpa using h
  | cons x t ih =>
    intro seen acc h
    have h2 := fuzzyInv_step mw postal seen acc x h
    have h3 := ih (seen ++ [x]) _ h2
    simpa using h3

/-- C2 (confirmed): in the fuzzy pass, postal match dominates similarity.  If
any qualifying candidate's postal code equals the merchant's, the winner is a
postal-matching qualifying candidate of maximal similarity among
postal-matching candidates (even if a non-postal candidate has strictly
higher similarity), and the verdict is `SIMILAR_NAME_POSTAL`; if qualifying
candidates exist but none is postal-matching, the winner has maximal
similarity among them all and the verdict is `SIMILAR_NAME`. -/
theorem C2_postal_match_dominates (reg : List HalalEstablishment)
    (name postal : String)
    (hnoexact : reg.find? (fun h => cleanName h.name == cleanName name) = none) :
    ((∃ h ∈ reg, qualifies (longWords (cleanName name)) (longWords (cleanName h.name)) = true ∧
        h.postal = postal) →
      ∃ e, findBestNameMatch reg name postal = some (e, "MUIS_VERIFIED_SIMILAR_POSTAL") ∧
        e ∈ reg ∧ e.postal = postal ∧
        qualifies (longWords (cleanName name)) (longWords (cleanName e.name)) = true ∧
        ∀ h ∈ reg,
          qualifies (longWords (cleanName name)) (longWords (cleanName h.name)) = true →
          h.postal = postal →
          similarityScore (longWords (cleanName name)) (longWords (cleanName h.name)) ≤
            similarityScore (longWords (cleanName name)) (longWords (cleanName e.name))) ∧
    (((∃ h ∈ reg, qualifies (longWords (cleanName name)) (longWords (cleanName h.name)) = true) ∧
        ¬(∃ h ∈ reg, qualifies (longWords (cleanName name)) (longWords (cleanName h.name)) = true ∧
            h.postal = postal)) →
      ∃ e, findBestNameMatch reg name postal = some (e, "MUIS_VERIFIED_SIMILAR_NAME") ∧
        e ∈ reg ∧
        qualifies (longWords (cleanName name)) (longWords (cleanName e.name)) = true ∧
        ∀ h ∈ reg,
          qualifies (longWords (cleanName name)) (longWords (cleanName h.name)) = true →
          similarityScore (longWords (cleanName name)) (longWords (cleanName h.name)) ≤
            similarityScore (longWords (cleanName name)) (longWords (cleanName e.name))) := by
  have hfold := fuzzyInv_fold (longWords (cleanName name)) postal reg [] none
    (by intro h hmem _; cases hmem)
  rw [List.nil_append] at hfold
  constructor
  · rintro ⟨h0, hmem0, hq0, hp0⟩
    cases hacc : List.foldl (fuzzyStep (longWords (cleanName name)) postal) none reg with
    | none =>
      rw [hacc] at hfold
      exact absurd hq0 (hfold h0 hmem0)
    | some best =>
      obtain ⟨e, s, p⟩ := best
      rw [hacc] at hfold
      obtain ⟨hmem, hqe, hs, hp, hnp, hmax⟩ := hfold
      have hptrue : p = true := by
        cases hpv : p
        · have := hnp hpv h0 hmem0 hq0
          rw [hp0] at this
          simp at this
        · rfl
      refine ⟨e, ?_, hmem, ?_, hqe, ?_⟩
      · simp only [findBestNameMatch, hnoexact, hacc, hptrue]
        simp
      · rw [hptrue] at hp
        exact (beq_iff_eq.mp hp.symm)
      · intro h hmemh hqh hph
        have hle := hmax h hmemh hqh (by rw [hph, hptrue]; simp)
        rw [hs] at hle
        exact hle
  · rintro ⟨⟨h0, hmem0, hq0⟩, hnone⟩
    cases hacc : List.foldl (fuzzyStep (longWords (cleanName name)) postal) none reg with
    | none =>
      rw [hacc] at hfold
      exact absurd hq0 (hfold h0 hmem0)
    | some best =>
      obtain ⟨e, s, p⟩ := best
      rw [hacc] at hfold
      obtain ⟨hmem, hqe, hs, hp, hnp, hmax⟩ := hfold
      have hpfalse : p = false := by
        cases hpv : p
        · rfl
        · rw [hpv] at hp
          exact absurd (⟨e, hmem, hqe, beq_iff_eq.mp hp.symm⟩ : ∃ h ∈ reg, qualifies (longWords (cleanName name)) (longWords (cleanName h.name)) = true ∧ h.postal = postal) hnone
      refine ⟨e, ?_, hmem, hqe, ?_⟩
      · simp only [findBestNameMatch, hnoexact, hacc, hpfalse]
        simp
      · intro h hmemh hqh
        have hph : (h.postal == postal) = false := by
          cases hbv : (h.postal == postal)
          · rfl
          · exact absurd (⟨h, hmemh, hqh, beq_iff_eq.mp hbv⟩ : ∃ h ∈ reg, qualifies (longWords (cleanName name)) (longWords (cleanName h.name)) = true ∧ h.postal = postal) hnone
        have hle := hmax h hmemh hqh (by rw [hph, hpfalse])
        rw [hs] at hle
        exact hle

/-- A register with two fuzzy candidates for merchant name
`"nasi lemak kitchenn"`: same similarity, only the second postal-matching. -/
def sampleRegister : List HalalEstablishment :=
  [⟨"nasi lemak kitchen", "", "", "F2", "", "", "222222"⟩,
   ⟨"nasi lemak kitchen", "", "", "F3", "", "", "111111"⟩]

theorem C2_postal_match_dominates_witness :
    ∃ e, findBestNameMatch sampleRegister "nasi lemak kitchenn" "111111" =
          some (e, "MUIS_VERIFIED_SIMILAR_POSTAL") ∧
      e ∈ sampleRegister ∧
      e.postal = "111111" ∧
      qualifies (longWords (cleanName "nasi lemak kitchenn"))
        (longWords (cleanName e.name)) = true ∧
      ∀ h ∈ sampleRegister,
        qualifies (longWords (cleanName "nasi lemak kitchenn"))
          (longWords (cleanName h.name)) = true →
        h.postal = "111111" →
        similarityScore (longWords (cleanName "nasi lemak kitchenn"))
            (longWords (cleanName h.name)) ≤
          similarityScore (longWords (cleanName "nasi lemak kitchenn"))
            (longWords (cleanName e.name)) :=
  (C2_postal_match_dominates sampleRegister "nasi lemak kitchenn" "111111" (by decide)).1
    ⟨⟨"nasi lemak kitchen", "", "", "F3", "", "", "111111"⟩, by decide, by decide, rfl⟩

/-- The claim-side abbreviation-table relation: the two tokens appear
together in the fixed table — a full word with one of its abbreviations, or
two abbreviations of the same full word. -/
def variationPairSpec (word1 word2 : String) : Prop :=
  ∃ p ∈ commonVariations,
    (word1 = p.1 ∧ word2 ∈ p.2) ∨ (word2 = p.1 ∧ word1 ∈ p.2) ∨
      (word1 ∈ p.2 ∧ word2 ∈ p.2)

theorem variationHit_iff (word1 word2 : String) :
    variationHit word1 word2 = true ↔ variationPairSpec word1 word2 := by
  unfold variationHit variationPairSpec
  rw [List.any_eq_true]
  constructor <;> rintro ⟨p, hp, hcond⟩ <;> refine ⟨p, hp, ?_⟩
  · have := by simpa using hcond
    tauto
  · have : (word1 = p.1 ∧ word2 ∈ p.2 ∨ word2 = p.1 ∧ word1 ∈ p.2) ∨
        word1 ∈ p.2 ∧ word2 ∈ p.2 := by tauto
    simpa using this

theorem mkRat_eq_div' (n : Int) (d : Nat) : mkRat n d = (n : ℚ) / (d : ℚ) := by
  rw [Rat.mkRat_eq_divInt, Rat.divInt_eq_div]
  norm_num

theorem mkRat_four_fifths : mkRat 4 5 = (4 : ℚ) / 5 := by
  rw [Rat.mkRat_eq_divInt, Rat.divInt_eq_div]
  norm_num

/-- C6 (confirmed): `isWordSimilar` holds iff the two tokens appear together
in the fixed abbreviation table (a full word with one of its abbreviations,
or two abbreviations of the same full word), or the classic unit-cost
Levenshtein distance satisfies
`(len(longer) - editDistance(longer, shorter)) / len(longer) ≥ 0.8`. -/
theorem C6_word_similarity_iff (word1 word2 : String) :
    isWordSimilar word1 word2 = true ↔
      (variationPairSpec word1 word2 ∨
        (((if word1.length > word2.length then word1 else word2).length : ℚ) -
            (levSpec (if word1.length > word2.length then word1 else word2).data
              (if word1.length > word2.length then word2 else word1).data : ℚ)) /
          ((if word1.length > word2.length then word1 else word2).length : ℚ) ≥ 4 / 5) := by
  unfold isWordSimilar
  cases hv : variationHit word1 word2 with
  | true =>
    simp only [hv, ite_true]
    simp [(variationHit_iff word1 word2).mp hv]
  | false =>
    have hvp : ¬variationPairSpec word1 word2 := fun h => by
      rw [(variationHit_iff word1 word2).mpr h] at hv
      cases hv
    simp only [hv, ite_false, Bool.false_eq_true, hvp, false_or]
    by_cases hz : (if word1.length > word2.length then word1 else word2).length = 0
    · rw [if_pos hz]
      have h12 : word1.length = 0 ∧ word2.length = 0 := by
        by_cases hgt : word1.length > word2.length
        · rw [if_pos hgt] at hz
          omega
        · rw [if_neg hgt] at hz
          omega
      have hd1 : word1.data = [] := by
        have := h12.1
        rwa [String.length, List.length_eq_zero] at this
      have hd2 : word2.data = [] := by
        have := h12.2
        rwa [String.length, List.length_eq_zero] at this
      constructor
      · intro hfalse
        cases hfalse
      · intro hge
        exfalso
        rw [hz] at hge
        have hlev : levSpec (if word1.length > word2.length then word1 else word2).data
            (if word1.length > word2.length then word2 else word1).data = 0 := by
          by_cases hgt : word1.length > word2.length <;>
            simp [hgt, hd1, hd2, levSpec]
        rw [hlev] at hge
        norm_num at hge
    · rw [if_neg hz]
      rw [decide_eq_true_iff]
      rw [levenshteinDistance_eq_levSpec, mkRat_eq_div', mkRat_four_fifths]
      constructor <;> intro hge
      · calc ((4 : ℚ) / 5) ≤
            ((((if word1.length > word2.length then word1 else word2).length : Int) -
              (levSpec (if word1.length > word2.length then word1 else word2).data
                (if word1.length > word2.length then word2 else word1).data : Int) : Int) : ℚ) /
              ((if word1.length > word2.length then word1 else word2).length : ℚ) := hge
          _ = _ := by push_cast; ring
      · calc ((4 : ℚ) / 5) ≤ _ := hge
          _ = ((((if word1.length > word2.length then word1 else word2).length : Int) -
              (levSpec (if word1.length > word2.length then word1 else word2).data
                (if word1.length > word2.length then word2 else word1).data : Int) : Int) : ℚ) /
              ((if word1.length > word2.length then word1 else word2).length : ℚ) := by
            push_cast; ring

/-- C8 (counterexample): an empty merchant name normalizes to the empty
string, yet it still matches an authority entry whose name also normalizes to
empty (here `"pte"`): the exact pass compares the two empty cleaned names as
equal and returns an `EXACT_NAME` verdict with `isHalal = true`, so such a
merchant does not "never match any authority entry". -/
theorem C8_counterexample :
    cleanName "" = "" ∧ cleanName "pte" = "" ∧
    isHalalCheck [⟨"pte", "", "", "C9", "", "", "123456"⟩] ⟨"", "999999"⟩ =
      ⟨true, "MUIS_VERIFIED_EXACT_NAME", some "C9"⟩ := by decide

/-- C8 (amended): an empty or whitespace-only merchant name normalizes to the
empty string and can never produce a fuzzy (`SIMILAR_NAME*`) verdict — the
empty token set fails the two-token conditions — but it can still
exact-match an authority entry whose cleaned name is also empty, so any
returned verdict for it is an `EXACT_NAME*` one. -/
theorem C8_amended_ws_only (s : String) (reg : List HalalEstablishment) (postal : String)
    (hws : ∀ c ∈ s.data, isWs c = true) :
    cleanName s = "" ∧
    ∀ e src, findBestNameMatch reg s postal = some (e, src) →
      src = "MUIS_VERIFIED_EXACT_POSTAL" ∨ src = "MUIS_VERIFIED_EXACT_NAME" := by
  have hclean := cleanName_of_all_ws s hws
  refine ⟨hclean, short_tokens_no_similar reg s postal ?_⟩
  rw [hclean]
  decide

theorem C8_amended_ws_only_witness :
    cleanName " " = "" ∧
    ∀ e src,
      findBestNameMatch [⟨"pte", "", "", "C9", "", "", "123456"⟩] " " "999999"
        = some (e, src) →
      src = "MUIS_VERIFIED_EXACT_POSTAL" ∨ src = "MUIS_VERIFIED_EXACT_NAME" :=
  C8_amended_ws_only " " [⟨"pte", "", "", "C9", "", "", "123456"⟩] "999999" (by decide)

theorem C10_empty_register_indistinguishable_witness :
    runIsHalal initialState (fun _ => some []) ⟨"Al-Falah Restaurant", "520123"⟩ =
      (⟨[], true⟩, 1, ⟨false, "HALAL_DATA_UNAVAILABLE", none⟩) ∧
    (∀ (fetches2 : Nat → Option (List HalalEstablishment)) (m2 : Merchant),
       runIsHalal ⟨[], true⟩ fetches2 m2 =
         (⟨[], true⟩, 0, ⟨false, "HALAL_DATA_UNAVAILABLE", none⟩)) ∧
    (isHalalCheck [] ⟨"Al-Falah Restaurant", "520123"⟩).source ≠ "NOT_IN_OFFICIAL_RECORDS" :=
  C10_empty_register_indistinguishable (fun _ => some [])
    ⟨"Al-Falah Restaurant", "520123"⟩ rfl

end Makanmana
